import Mathlib

/-!
Verification of the rich-logger rendering engine.

The Rust source is shallowly embedded: the process-wide render state
(`cursor_pos`, `last_second`) becomes an explicit `LogState` record, every
terminal write becomes an item appended to an output trace, machine integers
become `Nat`/`Int`, and every operation that can panic in Rust (unchecked
`usize` subtraction, `slice::chunks(0)`, byte slicing of a `&str` off a char
boundary, `print!` to a broken stdout) returns `Option`, with `none` standing
for the panic.  Terminal width, the current unix second, the local timezone
offset and the success of external library calls (crossterm `execute!`,
chrono `from_timestamp`) are parameters, since those are external
collaborators of the engine.
-/

namespace RichLogger

/-- Number of bytes of the UTF-8 encoding of a character.  Rust `str::len`
counts bytes, so this is the unit in which the source measures text. -/
def charBytes (c : Char) : Nat :=
  if c.toNat < 0x80 then 1
  else if c.toNat < 0x800 then 2
  else if c.toNat < 0x10000 then 3
  else 4

/-- UTF-8 byte length of a text, matching Rust `str::len`. -/
def byteLen (s : List Char) : Nat :=
  (s.map charBytes).sum

/-- Call sites of `write_string` in the source, used to tag trace items so
that padding, the origin suffix, the timestamp, the level name and content
segments can be told apart in the output trace. -/
inductive WTag where
  | pad
  | time
  | level
  | content
  | fname
  deriving DecidableEq, Repr

/-- One observable effect on the terminal: a `write_string` call or the
newline of `add_newline`. -/
inductive OutItem where
  | text (tag : WTag) (s : List Char)
  | newline
  deriving DecidableEq, Repr

/-- The process-wide render state of `struct RichLogger`: the cursor column
counter and the cached last rendered second. -/
structure LogState where
  cursor_pos : Nat
  last_second : Int
  deriving DecidableEq, Repr

/-- `RichLogger::write_string` (lib.rs 266-283), state part: the cursor is
advanced by `text.len()`, i.e. by the BYTE length of the text. -/
def write_string (st : LogState) (text : List Char) : LogState :=
  { st with cursor_pos := st.cursor_pos + byteLen text }

/-- A `write_string` call together with its trace item. -/
def ws (tag : WTag) (st : LogState) (text : List Char) : LogState × List OutItem :=
  (write_string st text, [OutItem.text tag text])

/-- `RichLogger::add_newline` (lib.rs 285-288): prints a newline and resets
the cursor column to zero. -/
def add_newline (st : LogState) : LogState × List OutItem :=
  ({ st with cursor_pos := 0 }, [OutItem.newline])

/-- `RichLogger::pad_to_column` (lib.rs 310-316): writes
`max 0 (column_size - cursor_pos)` spaces (the Rust `for` loop over
`0..(column_size - cursor)` is empty when the `i32` difference is not
positive). -/
def pad_to_column (st : LogState) (column_size : Int) : LogState × List OutItem :=
  ws WTag.pad st (List.replicate (column_size - (st.cursor_pos : Int)).toNat ' ')

/-- Severities of the `log` crate. -/
inductive Level where
  | error
  | warn
  | info
  | debug
  | trace
  deriving DecidableEq, Repr

/-- `Display` of `log::Level` (upper-case severity names), used by
`write_level`. -/
def level_text : Level → List Char
  | Level.error => ('E' :: 'R' :: 'R' :: 'O' :: 'R' :: [])
  | Level.warn => ('W' :: 'A' :: 'R' :: 'N' :: [])
  | Level.info => ('I' :: 'N' :: 'F' :: 'O' :: [])
  | Level.debug => ('D' :: 'E' :: 'B' :: 'U' :: 'G' :: [])
  | Level.trace => ('T' :: 'R' :: 'A' :: 'C' :: 'E' :: [])

/-- `RichLogger::write_level` (lib.rs 248-264): writes the severity name
(the color choice has no effect on the trace model). -/
def write_level (st : LogState) (lvl : Level) : LogState × List OutItem :=
  ws WTag.level st (level_text lvl)

/-- Two decimal digits of `n` (tens digit then ones digit); always exactly
two characters, as in the `%H`, `%M`, `%S` fields of the chrono format. -/
def two_digits (n : Nat) : List Char :=
  (Char.ofNat (48 + n / 10)) :: (Char.ofNat (48 + n % 10)) :: []

/-- The text rendered by `formatted_time.format("[%H:%M:%S] ")` for the
wall-clock second `t` (seconds since midnight taken modulo one day); always
exactly 11 characters. -/
def time_text (t : Int) : List Char :=
  let d : Nat := (t.emod 86400).toNat
  '[' :: two_digits (d / 3600) ++ ':' :: two_digits (d % 3600 / 60) ++
    ':' :: two_digits (d % 60) ++ (']' :: ' ' :: [])

/-- Environment of one render: the terminal width reported by crossterm,
the current unix second, the local timezone offset in seconds, and whether
`DateTime::from_timestamp` succeeds (it fails only for out-of-range
timestamps). -/
structure Env where
  width : Nat
  now : Int
  tz_off : Int
  ts_valid : Bool
  deriving DecidableEq, Repr

/-- `RichLogger::write_time` (lib.rs 290-308): if the cached second equals
the current second, only pad to column 11; otherwise store the current
second and write the 11-character formatted local time (or pad to column 11
when `from_timestamp` fails). -/
def write_time (env : Env) (st : LogState) : LogState × List OutItem :=
  if st.last_second = env.now then
    pad_to_column st 11
  else
    let st1 : LogState := { st with last_second := env.now }
    if env.ts_valid then
      ws WTag.time st1 (time_text (env.now + env.tz_off))
    else
      pad_to_column st1 11

/-- A `RichLoggerRecord` of lib.rs with plain-text content: the origin label
`file:line`, the severity and the message text. -/
structure Rec where
  file_name : List Char
  level : Level
  content : List Char
  deriving DecidableEq, Repr

/-- The content normalization at the head of `log_impl` (lib.rs 326-329):
`replace("\t", "    ")` then `replace("\r", "")`. -/
def normalize_content (s : List Char) : List Char :=
  (s.flatMap (fun c => if c = '\t' then (' ' :: ' ' :: ' ' :: ' ' :: []) else [c])).filter
    (fun c => c ≠ '\r')

/-- Rust `slice::chunks w`, with a structural fuel bounding the number of
chunks: groups of `w` consecutive elements, last group possibly shorter. -/
def chunksF : Nat → Nat → List Char → List (List Char)
  | 0, _, _ => []
  | _ + 1, _, [] => []
  | fuel + 1, w, c :: cs => (c :: cs).take w :: chunksF fuel w ((c :: cs).drop w)

/-- Rust `slice::chunks w` on a list: the list's length is always enough
fuel when `0 < w`.  The Rust call panics for `w = 0`; that case is
unreachable here because `log_impl` is modelled to panic first (see
`chunk_width_checked`). -/
def chunksOf (w : Nat) (l : List Char) : List (List Char) :=
  chunksF l.length w l

/-- Rust `str::split("\n")`: pieces of the text between newlines, keeping
empty pieces, with `[""]` for the empty text. -/
def splitNl : List Char → List (List Char)
  | [] => [[]]
  | c :: cs =>
    if c = '\n' then [] :: splitNl cs
    else
      match splitNl cs with
      | [] => [[c]]
      | l :: ls => (c :: l) :: ls

/-- Re-join the pieces of `splitNl`, restoring one newline between
consecutive pieces. -/
def joinNl : List (List Char) → List Char
  | [] => []
  | [l] => l
  | l :: ls => l ++ '\n' :: joinNl ls

/-- The `lines` computation of `log_impl` (lib.rs 326-345): normalize, chunk
into `w` characters, split every chunk at embedded newlines, flatten. -/
def log_lines (w : Nat) (content : List Char) : List (List Char) :=
  ((chunksOf w (normalize_content content)).map splitNl).flatten

/-- The chunk width computed at lib.rs 332-337:
`width - CONTENT_COLUMN - file_name.len() - 1` as unchecked `usize`
arithmetic; `none` models the debug-mode underflow panic.  The subsequent
`slice::chunks` call additionally panics (in every build mode) when the
result is `0`. -/
def chunk_width_checked (width fn_len : Nat) : Option Nat :=
  if 17 + fn_len + 1 ≤ width then some (width - 17 - fn_len - 1) else none

/-- The per-line loop of `log_impl` (lib.rs 347-365): pad to the content
column, write the line, on the first line only right-align the origin
suffix, then newline. -/
def write_lines (width : Nat) (fname : List Char) :
    List (List Char) → Bool → LogState → LogState × List OutItem
  | [], _, st => (st, [])
  | l :: rest, first, st =>
    let p1 := pad_to_column st 17
    let p2 := ws WTag.content p1.1 l
    let p3 :=
      if first then
        let q1 := pad_to_column p2.1 ((width : Int) - (byteLen fname : Int))
        let q2 := ws WTag.fname q1.1 fname
        (q2.1, q1.2 ++ q2.2)
      else (p2.1, [])
    let p4 := add_newline p3.1
    let p5 := write_lines width fname rest false p4.1
    (p5.1, p1.2 ++ p2.2 ++ p3.2 ++ p4.2 ++ p5.2)

/-- `log_impl` (lib.rs 319-366) for a plain-text record: pad to the time
column, write the time, pad to the level column, write the level, then wrap
the content and write the physical lines.  `none` models the panic of the
chunk-width arithmetic (underflow, or `chunks(0)` when the width equals the
reserved columns). -/
def log_impl (env : Env) (r : Rec) (st : LogState) : Option (LogState × List OutItem) :=
  let p1 := pad_to_column st 0
  let p2 := write_time env p1.1
  let p3 := pad_to_column p2.1 11
  let p4 := write_level p3.1 r.level
  match chunk_width_checked env.width (byteLen r.file_name) with
  | none => none
  | some 0 => none
  | some (w + 1) =>
    let p5 := write_lines env.width r.file_name (log_lines (w + 1) r.content) true p4.1
    some (p5.1, p1.2 ++ p2.2 ++ p3.2 ++ p4.2 ++ p5.2)

/-- The consumer loop of `spawn_logger_thread` (async.rs 20-28): the mpsc
channel is modelled as the list of records in enqueue order, and the single
background thread renders them one after the other, threading the render
state and concatenating the output traces. -/
def consume (env : Env) (st : LogState) : List Rec → Option (LogState × List OutItem)
  | [] => some (st, [])
  | r :: rs =>
    match log_impl env r st with
    | none => none
    | some (st1, tr1) =>
      match consume env st1 rs with
      | none => none
      | some (st2, tr2) => some (st2, tr1 ++ tr2)

/-- The content segments of a trace: the texts written by the line-writing
`write_string` calls, excluding padding, timestamp, level and the origin
suffix. -/
def content_segments (tr : List OutItem) : List (List Char) :=
  tr.filterMap (fun it =>
    match it with
    | OutItem.text WTag.content s => some s
    | _ => none)

/-- How many times a trace writes the origin suffix. -/
def fname_count (tr : List OutItem) : Nat :=
  (tr.filter (fun it =>
    match it with
    | OutItem.text WTag.fname _ => true
    | _ => false)).length

/-- Total printed width of a trace (byte length of everything written). -/
def out_width (tr : List OutItem) : Nat :=
  (tr.map (fun it =>
    match it with
    | OutItem.text _ s => byteLen s
    | OutItem.newline => 0)).sum

/-- The opening brace character, written by codepoint. -/
def lbrace : Char := Char.ofNat 123

/-- The closing brace character, written by codepoint. -/
def rbrace : Char := Char.ofNat 125

mutual
/-- A parsed JSON tree (`serde_json::Value`).  Arrays and objects are
ordered sequences, matching the iteration order of the source tree; a
number carries the text `Number::to_string()` renders for it, since the
tokenizer copies exactly that text into the token content. -/
inductive Json where
  | null : Json
  | bool (b : Bool) : Json
  | num (s : List Char) : Json
  | str (s : List Char) : Json
  | arr (es : JsonArr) : Json
  | obj (ms : JsonObj) : Json

/-- The element sequence of a JSON array. -/
inductive JsonArr where
  | nil : JsonArr
  | cons (hd : Json) (tl : JsonArr) : JsonArr

/-- The key/value sequence of a JSON object, in iteration order. -/
inductive JsonObj where
  | nil : JsonObj
  | cons (k : List Char) (v : Json) (tl : JsonObj) : JsonObj
end

/-- `Operator` of json.rs 8-15. -/
inductive Operator where
  | lbraceOp
  | rbraceOp
  | lbracketOp
  | rbracketOp
  | colonOp
  | commaOp
  deriving DecidableEq, Repr

/-- `Literal` of json.rs 17-22.  The source stores an `f64` for a number
token; here the number is abstracted by the text its `to_string` renders. -/
inductive Literal where
  | stringLit (s : List Char)
  | numberLit (rendered : List Char)
  | booleanLit (b : Bool)
  | nullLit
  deriving DecidableEq, Repr

/-- `TokenKind` of json.rs 24-27. -/
inductive TokenKind where
  | op (o : Operator)
  | lit (l : Literal)
  deriving DecidableEq, Repr

/-- `JsonToken` of json.rs 29-32. -/
structure JsonToken where
  kind : TokenKind
  content : List Char
  deriving DecidableEq, Repr

mutual
/-- `tokenize_json_value` (json.rs 192-273): depth-first conversion of a
JSON tree into tokens.  A string's content is the raw text wrapped in
double quotes with NO escaping (`format!("\"{}\"", s)`), a number's content
is the number's own rendering, and commas separate consecutive children. -/
def tokenize_json_value : Json → List JsonToken
  | Json.null => [⟨TokenKind.lit Literal.nullLit, ('n' :: 'u' :: 'l' :: 'l' :: [])⟩]
  | Json.bool b =>
    [⟨TokenKind.lit (Literal.booleanLit b),
      if b then ('t' :: 'r' :: 'u' :: 'e' :: []) else ('f' :: 'a' :: 'l' :: 's' :: 'e' :: [])⟩]
  | Json.num s => [⟨TokenKind.lit (Literal.numberLit s), s⟩]
  | Json.str s => [⟨TokenKind.lit (Literal.stringLit s), '"' :: s ++ ['"']⟩]
  | Json.arr es =>
    ⟨TokenKind.op Operator.lbracketOp, ['[']⟩ ::
      tok_elems es ++ [⟨TokenKind.op Operator.rbracketOp, [']']⟩]
  | Json.obj ms =>
    ⟨TokenKind.op Operator.lbraceOp, [lbrace]⟩ ::
      tok_members ms ++ [⟨TokenKind.op Operator.rbraceOp, [rbrace]⟩]

/-- The array loop of `tokenize_json_value` (json.rs 222-231): element
tokens with a comma token after every element except the last. -/
def tok_elems : JsonArr → List JsonToken
  | JsonArr.nil => []
  | JsonArr.cons v JsonArr.nil => tokenize_json_value v
  | JsonArr.cons v (JsonArr.cons w tl) =>
    tokenize_json_value v ++ ⟨TokenKind.op Operator.commaOp, [',']⟩ ::
      tok_elems (JsonArr.cons w tl)

/-- The object loop of `tokenize_json_value` (json.rs 244-263): quoted key
token, colon token, value tokens, comma after every member except the
last. -/
def tok_members : JsonObj → List JsonToken
  | JsonObj.nil => []
  | JsonObj.cons k v JsonObj.nil =>
    ⟨TokenKind.lit (Literal.stringLit k), '"' :: k ++ ['"']⟩ ::
      ⟨TokenKind.op Operator.colonOp, [':']⟩ :: tokenize_json_value v
  | JsonObj.cons k v (JsonObj.cons k2 v2 tl) =>
    ⟨TokenKind.lit (Literal.stringLit k), '"' :: k ++ ['"']⟩ ::
      ⟨TokenKind.op Operator.colonOp, [':']⟩ :: tokenize_json_value v ++
        ⟨TokenKind.op Operator.commaOp, [',']⟩ :: tok_members (JsonObj.cons k2 v2 tl)
end

/-- Concatenation, in order, of the `content` fields of the tokens of a
value: the document the token stream spells out. -/
def tok_contents (v : Json) : List Char :=
  ((tokenize_json_value v).map JsonToken.content).flatten

/-- ASCII decimal digit. -/
def is_digit (c : Char) : Bool :=
  48 ≤ c.toNat && c.toNat ≤ 57

/-- Characters that may occur in a JSON number literal. -/
def is_num_char (c : Char) : Bool :=
  is_digit c || c = '-' || c = '+' || c = '.' || c = 'e' || c = 'E'

/-- Control character (below U+0020), forbidden raw inside a JSON string. -/
def is_ctrl (c : Char) : Bool :=
  c.toNat < 32

/-- Consume one or more decimal digits, returning the rest. -/
def digits1 : List Char → Option (List Char)
  | [] => none
  | c :: cs => if is_digit c then some (cs.dropWhile is_digit) else none

/-- Consume the optional fraction part `.digits` of a JSON number. -/
def frac_part : List Char → Option (List Char)
  | '.' :: cs => digits1 cs
  | cs => some cs

/-- Consume the optional exponent part `e[+-]digits` of a JSON number. -/
def exp_part : List Char → Option (List Char)
  | 'e' :: '+' :: cs => digits1 cs
  | 'e' :: '-' :: cs => digits1 cs
  | 'e' :: cs => digits1 cs
  | 'E' :: '+' :: cs => digits1 cs
  | 'E' :: '-' :: cs => digits1 cs
  | 'E' :: cs => digits1 cs
  | cs => some cs

/-- Consume the integer part of a JSON number: `0`, or a nonzero digit
followed by digits. -/
def int_part : List Char → Option (List Char)
  | [] => none
  | c :: cs =>
    if c = '0' then some cs
    else if is_digit c then some (cs.dropWhile is_digit) else none

/-- Strip one optional leading minus sign. -/
def sign_split (s : List Char) : List Char :=
  match s with
  | [] => []
  | c :: t => if c = '-' then t else c :: t

/-- Modelled from the spec: the JSON number grammar
`-? (0 | [1-9][0-9]*) (. [0-9]+)? ([eE] [+-]? [0-9]+)?`, used to state which
number renderings are themselves valid JSON (every `serde_json::Number`
rendering is). -/
def is_num_lit (s : List Char) : Bool :=
  s.all is_num_char &&
    (((int_part (sign_split s)).bind frac_part).bind exp_part) = some []

/-- Modelled from the spec: parsing the body of a JSON string literal after
the opening quote, up to the closing quote.  Escape sequences are not
accepted (the tokenizer never produces them) and raw control characters are
rejected as JSON requires, so success implies real JSON validity. -/
def parse_string_body : List Char → Option (List Char × List Char)
  | [] => none
  | c :: cs =>
    if c = '"' then some ([], cs)
    else if c = '\\' || is_ctrl c then none
    else
      match parse_string_body cs with
      | none => none
      | some (s, rest) => some (c :: s, rest)

/-- Consume an exact sequence of expected characters. -/
def expect_chars : List Char → List Char → Option (List Char)
  | [], input => some input
  | _ :: _, [] => none
  | p :: ps, c :: cs => if c = p then expect_chars ps cs else none

mutual
/-- Modelled from the spec: a reference JSON value parser over the exact
language the tokenizer emits (no whitespace between tokens), used to state
that a token stream spells a syntactically valid JSON document and to
recover its structure.  The fuel argument only bounds recursion depth. -/
def parse_value : Nat → List Char → Option (Json × List Char)
  | 0, _ => none
  | _ + 1, [] => none
  | fuel + 1, c :: cs =>
    if c = 'n' then
      (expect_chars ('u' :: 'l' :: 'l' :: []) cs).map (fun r => (Json.null, r))
    else if c = 't' then
      (expect_chars ('r' :: 'u' :: 'e' :: []) cs).map (fun r => (Json.bool true, r))
    else if c = 'f' then
      (expect_chars ('a' :: 'l' :: 's' :: 'e' :: []) cs).map (fun r => (Json.bool false, r))
    else if c = '"' then
      (parse_string_body cs).map (fun p => (Json.str p.1, p.2))
    else if c = '[' then
      match cs with
      | [] => none
      | c2 :: cs2 =>
        if c2 = ']' then some (Json.arr JsonArr.nil, cs2)
        else
          (parse_elements fuel cs).map (fun p => (Json.arr p.1, p.2))
    else if c = lbrace then
      match cs with
      | [] => none
      | c2 :: cs2 =>
        if c2 = rbrace then some (Json.obj JsonObj.nil, cs2)
        else
          (parse_members fuel cs).map (fun p => (Json.obj p.1, p.2))
    else
      let num := (c :: cs).takeWhile is_num_char
      if is_num_lit num then some (Json.num num, (c :: cs).dropWhile is_num_char)
      else none

/-- Modelled from the spec: the elements of a non-empty JSON array,
separated by commas and terminated by the closing bracket (which is
consumed). -/
def parse_elements : Nat → List Char → Option (JsonArr × List Char)
  | 0, _ => none
  | fuel + 1, input =>
    match parse_value fuel input with
    | none => none
    | some (v, rest) =>
      match rest with
      | [] => none
      | c :: cs =>
        if c = ',' then
          (parse_elements fuel cs).map (fun p => (JsonArr.cons v p.1, p.2))
        else if c = ']' then some (JsonArr.cons v JsonArr.nil, cs)
        else none

/-- Modelled from the spec: the members of a non-empty JSON object, each a
quoted key, a colon and a value, separated by commas and terminated by the
closing brace (which is consumed). -/
def parse_members : Nat → List Char → Option (JsonObj × List Char)
  | 0, _ => none
  | fuel + 1, input =>
    match input with
    | [] => none
    | c :: cs =>
      if c = '"' then
        match parse_string_body cs with
        | none => none
        | some (k, r1) =>
          match r1 with
          | [] => none
          | c2 :: r2 =>
            if c2 = ':' then
              match parse_value fuel r2 with
              | none => none
              | some (v, r3) =>
                match r3 with
                | [] => none
                | c3 :: r4 =>
                  if c3 = ',' then
                    (parse_members fuel r4).map (fun p => (JsonObj.cons k v p.1, p.2))
                  else if c3 = rbrace then some (JsonObj.cons k v JsonObj.nil, r4)
                  else none
            else none
      else none
end

/-- Modelled from the spec: parse a complete JSON document — a single value
consuming the whole input. -/
def parse_json_doc (s : List Char) : Option Json :=
  match parse_value (s.length + 1) s with
  | some (v, []) => some v
  | _ => none

/-- A string may appear raw inside a JSON string literal: not a quote, not a
backslash, not a control character (nothing that would need escaping). -/
def str_ok (s : List Char) : Bool :=
  s.all (fun c => !(c = '"' || c = '\\' || is_ctrl c))

mutual
/-- The values on which the tokenizer's unescaped output is itself valid
JSON: every string and key needs no escaping, every number rendering is a
valid JSON number literal. -/
def json_wf : Json → Bool
  | Json.null => true
  | Json.bool _ => true
  | Json.num s => is_num_lit s
  | Json.str s => str_ok s
  | Json.arr es => wf_elems es
  | Json.obj ms => wf_members ms

/-- `json_wf` over array elements. -/
def wf_elems : JsonArr → Bool
  | JsonArr.nil => true
  | JsonArr.cons v tl => json_wf v && wf_elems tl

/-- `json_wf` over object members. -/
def wf_members : JsonObj → Bool
  | JsonObj.nil => true
  | JsonObj.cons k v tl => str_ok k && json_wf v && wf_members tl
end

mutual
/-- Recursion-depth measure of a value, used to supply parser fuel. -/
def sizeJ : Json → Nat
  | Json.null => 1
  | Json.bool _ => 1
  | Json.num _ => 1
  | Json.str _ => 1
  | Json.arr es => 1 + sizeA es
  | Json.obj ms => 1 + sizeO ms

/-- `sizeJ` over array elements. -/
def sizeA : JsonArr → Nat
  | JsonArr.nil => 0
  | JsonArr.cons v tl => 1 + sizeJ v + sizeA tl

/-- `sizeJ` over object members. -/
def sizeO : JsonObj → Nat
  | JsonObj.nil => 0
  | JsonObj.cons _ v tl => 1 + sizeJ v + sizeO tl
end

/-- Split a text after exactly `n` UTF-8 bytes, the semantics of Rust byte
slicing `&text[..n]` / `&text[n..]`: `none` when `n` is past the end of the
text or falls inside a multi-byte character (both panic in Rust). -/
def split_at_bytes : Nat → List Char → Option (List Char × List Char)
  | 0, cs => some ([], cs)
  | _ + 1, [] => none
  | n + 1, c :: cs =>
    if charBytes c ≤ n + 1 then
      match split_at_bytes (n + 1 - charBytes c) cs with
      | none => none
      | some (pre, post) => some (c :: pre, post)
    else none

/-- `text.char_indices().take(avail).last()` of json.rs 47-52 with starting
byte offset `acc`: the byte index of the last of the first `avail`
characters, if any. -/
def last_char_idx (acc : Nat) : Nat → List Char → Option Nat
  | 0, _ => none
  | _ + 1, [] => none
  | avail + 1, c :: cs =>
    some ((last_char_idx (acc + charBytes c) avail cs).getD acc)

/-- `safe_wrap_print_json` (json.rs 34-69), fueled.  Per call: recompute the
usable width `term_w - right_pad + 1` (`none` on `usize` underflow), take
the available width as a saturating difference from the cursor; if the BYTE
length of the text reaches it, write the slice up to and including the byte
index of the last fitting character (`none` when that slice splits a
multi-byte character), pad to `width + 1`, write the origin suffix when
`print_fn` is set, newline, pad to the content column and recurse on the
byte remainder with an empty suffix; otherwise write the whole text.
Returns the final state, the trace, and whether this call printed the
origin suffix. -/
def safe_wrap_go (term_w right_pad : Nat) :
    Nat → LogState → List Char → List Char → Bool →
      Option (LogState × List OutItem × Bool)
  | 0, _, _, _, _ => none
  | fuel + 1, st, text, file_name, print_fn =>
    if right_pad ≤ term_w then
      let width := term_w - right_pad + 1
      let avail := width - st.cursor_pos
      if byteLen text ≥ avail then
        let sp := (last_char_idx 0 avail text).getD 0
        match split_at_bytes (sp + 1) text with
        | none => none
        | some (pre, rest) =>
          let p1 := ws WTag.content st pre
          let p2 := pad_to_column p1.1 ((width : Int) + 1)
          let p3 :=
            if print_fn then
              let q := ws WTag.fname p2.1 file_name
              (q.1, q.2, true)
            else (p2.1, [], false)
          let p4 := add_newline p3.1
          let p5 := pad_to_column p4.1 17
          match safe_wrap_go term_w right_pad fuel p5.1 rest [] false with
          | none => none
          | some (st6, tr6, r6) =>
            some (st6, p1.2 ++ p2.2 ++ p3.2.1 ++ p4.2 ++ p5.2 ++ tr6, r6 || p3.2.2)
      else
        let p := ws WTag.content st text
        some (p.1, p.2, false)
    else none

/-- `safe_wrap_print_json` with sufficient fuel (each recursive call
strictly consumes bytes of the text). -/
def safe_wrap_print_json (term_w right_pad : Nat) (st : LogState)
    (text file_name : List Char) (print_fn : Bool) :
    Option (LogState × List OutItem × Bool) :=
  safe_wrap_go term_w right_pad (byteLen text + 1) st text file_name print_fn

/-- The text `print_json_color` renders for a token (json.rs 75-180): it is
rebuilt from the token KIND, not taken from the `content` field — a colon
renders as a colon and space, a comma as a comma and space, a string
literal re-wrapped in quotes. -/
def token_text : JsonToken → List Char
  | ⟨TokenKind.op Operator.lbraceOp, _⟩ => [lbrace]
  | ⟨TokenKind.op Operator.rbraceOp, _⟩ => [rbrace]
  | ⟨TokenKind.op Operator.lbracketOp, _⟩ => ['[']
  | ⟨TokenKind.op Operator.rbracketOp, _⟩ => [']']
  | ⟨TokenKind.op Operator.colonOp, _⟩ => (':' :: ' ' :: [])
  | ⟨TokenKind.op Operator.commaOp, _⟩ => (',' :: ' ' :: [])
  | ⟨TokenKind.lit (Literal.stringLit s), _⟩ => '"' :: s ++ ['"']
  | ⟨TokenKind.lit (Literal.numberLit r), _⟩ => r
  | ⟨TokenKind.lit (Literal.booleanLit b), _⟩ =>
    if b then ('t' :: 'r' :: 'u' :: 'e' :: []) else ('f' :: 'a' :: 'l' :: 's' :: 'e' :: [])
  | ⟨TokenKind.lit Literal.nullLit, _⟩ => ('n' :: 'u' :: 'l' :: 'l' :: [])

/-- The token loop of `print_json_color` (json.rs 72-182): render each
token through `safe_wrap_print_json` with right pad equal to the byte
length of the origin suffix, folding the return value into the
`should_print_filename` flag with XOR.  Returns the final flag as well. -/
def print_json_go (term_w : Nat) (fname : List Char) :
    List JsonToken → LogState → Bool → Option (LogState × List OutItem × Bool)
  | [], st, spf => some (st, [], spf)
  | t :: ts, st, spf =>
    match safe_wrap_print_json term_w (byteLen fname) st (token_text t) fname spf with
    | none => none
    | some (st1, tr1, ret) =>
      match print_json_go term_w fname ts st1 (xor ret spf) with
      | none => none
      | some (st2, tr2, spf2) => some (st2, tr1 ++ tr2, spf2)

/-- `print_json_color` (json.rs 71-190): render the token stream, then, if
the origin suffix was never printed at a wrap, right-align and print it
after all tokens (`none` models the `usize` underflow panic of
`width - file_name.len()` there). -/
def print_json_color (term_w : Nat) (fname : List Char)
    (toks : List JsonToken) (st : LogState) : Option (LogState × List OutItem) :=
  match print_json_go term_w fname toks st true with
  | none => none
  | some (st1, tr, spf) =>
    if spf then
      if byteLen fname ≤ term_w then
        let p1 := pad_to_column st1 (((term_w - byteLen fname : Nat) : Int))
        let p2 := ws WTag.fname p1.1 fname
        some (p2.1, tr ++ p1.2 ++ p2.2)
      else none
    else some (st1, tr)

/-- `wrap_print_json` (lib.rs 33-47), fueled: when the cursor plus the byte
length of the text passes the terminal width, write the first
`width - cursor_pos` bytes, newline, pad to the content column, and recurse
on the text from byte index `width` on — NOT from where the written slice
ended.  `none` models the panics of the two byte slices (underflow,
past-the-end index, or a split inside a multi-byte character). -/
def wrap_print_go (term_w : Nat) :
    Nat → LogState → List Char → Option (LogState × List OutItem)
  | 0, _, _ => none
  | fuel + 1, st, text =>
    if st.cursor_pos + byteLen text > term_w then
      if st.cursor_pos ≤ term_w then
        match split_at_bytes (term_w - st.cursor_pos) text with
        | none => none
        | some (pre, _) =>
          let p1 := ws WTag.content st pre
          let p2 := add_newline p1.1
          let p3 := pad_to_column p2.1 17
          match split_at_bytes term_w text with
          | none => none
          | some (_, rest) =>
            match wrap_print_go term_w fuel p3.1 rest with
            | none => none
            | some (st4, tr4) => some (st4, p1.2 ++ p2.2 ++ p3.2 ++ tr4)
      else none
    else
      let p := ws WTag.content st text
      some (p.1, p.2)

/-- `wrap_print_json` with sufficient fuel for its terminating runs. -/
def wrap_print_json (term_w : Nat) (st : LogState) (text : List Char) :
    Option (LogState × List OutItem) :=
  wrap_print_go term_w (byteLen text + 1) st text

/-- What actually reaches the terminal from one `write_string` call. -/
inductive Emit where
  | colored (s : List Char)
  | plain (s : List Char)
  deriving DecidableEq, Repr

/-- The failure environment of one `write_string` call: whether the
crossterm `execute!` write fails and whether the plain `print!` fallback
fails (both fail together when stdout itself is closed). -/
structure IOEnv where
  exec_fail : Bool
  print_fail : Bool
  deriving DecidableEq, Repr

/-- The I/O behaviour of `RichLogger::write_string` (lib.rs 266-283): try
the (optionally colored) buffered `execute!` write; on error fall back to
the unbuffered `print!` of the same text.  `execute!` is modelled as
atomic.  Rust's `print!` PANICS when writing to stdout fails, which `none`
models; no error value is ever returned to the caller. -/
def write_string_io (env : IOEnv) (colored : Bool) (text : List Char) :
    Option (List Emit) :=
  if env.exec_fail then
    if env.print_fail then none else some [Emit.plain text]
  else if colored then some [Emit.colored text]
  else some [Emit.plain text]

/-- `log::LevelFilter`. -/
inductive LevelFilter where
  | off
  | filterError
  | filterWarn
  | filterInfo
  | filterDebug
  | filterTrace
  deriving DecidableEq, Repr

/-- The facade state `init` produces: the logger installed and the global
maximum level set. -/
structure FacadeState where
  maxLevel : LevelFilter
  deriving DecidableEq, Repr

/-- `impl log::Log for RichLogger`, `enabled` (lib.rs 368-371): constantly
true — the backend performs no severity filtering of its own. -/
def enabled (_lvl : Level) : Bool :=
  true

/-- The synchronous `log` method (lib.rs 378-381): renders every record it
is handed, with no severity check. -/
def rich_log (env : Env) (r : Rec) (st : LogState) : Option (LogState × List OutItem) :=
  log_impl env r st

/-- `init` (lib.rs 410-412) on the happy path (no logger installed yet):
install the backend and set the facade's global max level — the only place
the minimum severity takes effect. -/
def init (level : LevelFilter) : Option FacadeState :=
  some ⟨level⟩

/-- Concatenated token contents of an array's element tokens. -/
def contents_elems (es : JsonArr) : List Char :=
  ((tok_elems es).map JsonToken.content).flatten

/-- Concatenated token contents of an object's member tokens. -/
def contents_members (ms : JsonObj) : List Char :=
  ((tok_members ms).map JsonToken.content).flatten

/-- A text that may directly follow a serialized JSON number without
changing how far a maximal-munch number scan reaches: empty, or starting
with a non-number character. -/
def delim_ok : List Char → Bool
  | [] => true
  | c :: _ => !is_num_char c

/-- The text carried by one terminal emission. -/
def emit_text : Emit → List Char
  | Emit.colored s => s
  | Emit.plain s => s

/-- The trace one wrap step of `safe_wrap_go` emits before the recursion's
trace: the fitting prefix, the pad to one past the usable width, the origin
suffix when requested, the newline, and the pad back to the content
column. -/
def wrap_trace (tw rp : Nat) (st : LogState) (pre fname : List Char) (pf : Bool)
    (tr6 : List OutItem) : List OutItem :=
  OutItem.text WTag.content pre ::
    OutItem.text WTag.pad
      (List.replicate ((((tw - rp + 1 : Nat) : Int) + 1 -
        ((st.cursor_pos + byteLen pre : Nat) : Int)).toNat) ' ') ::
    ((if pf then [OutItem.text WTag.fname fname] else []) ++
      OutItem.newline :: OutItem.text WTag.pad (List.replicate 17 ' ') :: tr6)

/- ------------------------------------------------------------------ -/
/- Helper lemmas.                                                      -/
/- ------------------------------------------------------------------ -/

theorem byteLen_nil : byteLen [] = 0 := rfl

theorem byteLen_cons (c : Char) (s : List Char) :
    byteLen (c :: s) = charBytes c + byteLen s := by
  simp [byteLen]

theorem byteLen_append (s t : List Char) :
    byteLen (s ++ t) = byteLen s + byteLen t := by
  simp [byteLen]

theorem byteLen_replicate_space (n : Nat) :
    byteLen (List.replicate n ' ') = n := by
  induction n with
  | zero => rfl
  | succ m ih =>
    simp [List.replicate_succ, byteLen_cons, charBytes, ih]
    omega

theorem byteLen_of_single (s : List Char)
    (h : s.all (fun c => charBytes c = 1) = true) : byteLen s = s.length := by
  induction s with
  | nil => rfl
  | cons c cs ih =>
    simp only [List.all_cons, Bool.and_eq_true, decide_eq_true_eq] at h
    simp [byteLen_cons, h.1, ih h.2]
    omega

theorem foldl_write_string (texts : List (List Char)) :
    ∀ st : LogState,
      (texts.foldl write_string st).cursor_pos =
        st.cursor_pos + (texts.map byteLen).sum := by
  induction texts with
  | nil => intro st; simp
  | cons t ts ih =>
    intro st
    simp [List.foldl_cons, ih, write_string, Nat.add_assoc]

/- ------------------------------------------------------------------ -/
/- C1: the cursor-column invariant.                                    -/
/- ------------------------------------------------------------------ -/

/-- C1 (counterexample): `write_string` advances the cursor by the BYTE
length of the text, so after writing the single two-byte character U+00E9
the cursor is 2, not the printed character count 1 — the claimed invariant
fails on multi-byte text. -/
theorem cursor_pos_not_char_count :
    (write_string ⟨0, 0⟩ ['é']).cursor_pos = 2 ∧ (['é'] : List Char).length = 1 := by
  decide

/-- C1 (amended): after any sequence of `write_string` calls with no
intervening `add_newline`, the cursor column equals the total UTF-8 BYTE
count of the texts written since the last newline (which coincides with the
printed character count exactly when every character is single-byte), and
`add_newline` resets the cursor to zero. -/
theorem cursor_pos_byte_invariant (texts : List (List Char)) (st : LogState) :
    (texts.foldl write_string st).cursor_pos =
      st.cursor_pos + (texts.map byteLen).sum ∧
    (add_newline st).1.cursor_pos = 0 := by
  exact ⟨foldl_write_string texts st, rfl⟩

/- ------------------------------------------------------------------ -/
/- C4: behaviour at small terminal widths.                             -/
/- ------------------------------------------------------------------ -/

/-- C4 (code bug): the usable width is NOT clamped to 1.  At terminal
width 18 with an empty origin suffix the plain-text chunk width computes to
`some 0` (and `slice::chunks(0)` panics in every build mode, so `log_impl`
panics, modelled as `none`); at width 17 the unchecked subtraction already
underflows; and on the JSON path a suffix longer than the width makes
`width - right_pad + 1` underflow.  The spec requires none of these to
panic. -/
theorem small_width_not_clamped :
    chunk_width_checked 18 0 = some 0 ∧
    chunk_width_checked 17 0 = none ∧
    log_impl ⟨18, 0, 0, true⟩ ⟨[], Level.info, ('a' :: 'b' :: 'c' :: [])⟩ ⟨0, 0⟩ = none ∧
    safe_wrap_print_json 80 81 ⟨17, 0⟩ ['x'] [] true = none := by
  decide

/- ------------------------------------------------------------------ -/
/- C9: write-failure recovery.                                         -/
/- ------------------------------------------------------------------ -/

/-- C9 (counterexample): when stdout itself is broken, the crossterm write
fails AND the `print!` fallback fails, and Rust's `print!` macro panics on
a stdout write failure — so `write_string` does panic on an output failure,
refuting "never panics". -/
theorem write_string_panics_when_stdout_broken :
    write_string_io ⟨true, true⟩ true ('h' :: 'i' :: []) = none := rfl

/-- C9 (amended): provided the plain `print!` fallback itself succeeds,
`write_string` never panics and never drops the text: exactly the given
text reaches the output, and on a failed colored write it is re-printed
uncolored through the fallback path; no error is ever returned to the
caller. -/
theorem write_string_fallback (env : IOEnv) (colored : Bool) (text : List Char)
    (h : env.print_fail = false) :
    ∃ out, write_string_io env colored text = some out ∧
      (out.map emit_text).flatten = text ∧
      (env.exec_fail = true → out = [Emit.plain text]) := by
  cases he : env.exec_fail <;> cases colored <;>
    simp [write_string_io, he, h, emit_text]

/-- C9 (witness): the fallback theorem applied to a failing colored write
with a healthy stdout. -/
theorem write_string_fallback_witness :
    ∃ out, write_string_io ⟨true, false⟩ true ('h' :: 'i' :: []) = some out ∧
      (out.map emit_text).flatten = ('h' :: 'i' :: []) ∧
      ((⟨true, false⟩ : IOEnv).exec_fail = true → out = [Emit.plain ('h' :: 'i' :: [])]) :=
  write_string_fallback ⟨true, false⟩ true ('h' :: 'i' :: []) rfl

/- ------------------------------------------------------------------ -/
/- C2: plain-text wrap is lossless (up to the normalization).          -/
/- ------------------------------------------------------------------ -/

theorem chunksF_flatten :
    ∀ (fuel w : Nat), 0 < w → ∀ l : List Char, l.length ≤ fuel →
      (chunksF fuel w l).flatten = l := by
  intro fuel
  induction fuel with
  | zero =>
    intro w hw l hl
    have : l = [] := List.eq_nil_of_length_eq_zero (by omega)
    subst this
    simp [chunksF]
  | succ n ih =>
    intro w hw l hl
    cases l with
    | nil => simp [chunksF]
    | cons c cs =>
      simp only [chunksF, List.flatten_cons]
      have hlen : ((c :: cs).drop w).length ≤ n := by
        simp only [List.length_cons] at hl
        simp only [List.length_drop, List.length_cons]
        omega
      rw [ih w hw _ hlen]
      exact List.take_append_drop _ _

theorem chunksOf_join (w : Nat) (hw : 0 < w) (l : List Char) :
    (chunksOf w l).flatten = l :=
  chunksF_flatten l.length w hw l le_rfl

theorem splitNl_ne_nil (s : List Char) : splitNl s ≠ [] := by
  cases s with
  | nil => simp [splitNl]
  | cons c cs =>
    simp only [splitNl]
    split
    · simp
    · split <;> simp

theorem joinNl_splitNl (s : List Char) : joinNl (splitNl s) = s := by
  induction s with
  | nil => rfl
  | cons c cs ih =>
    by_cases h : c = '\n'
    · subst h
      simp only [splitNl, if_pos rfl]
      cases hs : splitNl cs with
      | nil => exact absurd hs (splitNl_ne_nil cs)
      | cons l ls =>
        rw [hs] at ih
        show joinNl ([] :: l :: ls) = '\n' :: cs
        rw [show joinNl ([] :: l :: ls) = [] ++ '\n' :: joinNl (l :: ls) from rfl]
        simp [ih]
    · simp only [splitNl, if_neg h]
      cases hs : splitNl cs with
      | nil => exact absurd hs (splitNl_ne_nil cs)
      | cons l ls =>
        rw [hs] at ih
        cases ls with
        | nil =>
          show (c :: l) = c :: cs
          have : (l : List Char) = cs := ih
          rw [this]
        | cons l2 ls2 =>
          show (c :: l) ++ '\n' :: joinNl (l2 :: ls2) = c :: cs
          have : l ++ '\n' :: joinNl (l2 :: ls2) = cs := ih
          simp [← this]

theorem map_joinNl_splitNl (cs : List (List Char)) :
    cs.map (fun ch => joinNl (splitNl ch)) = cs := by
  have : (fun ch => joinNl (splitNl ch)) = fun ch : List Char => ch := by
    funext ch
    exact joinNl_splitNl ch
  rw [this, List.map_id']

theorem content_segments_append (a b : List OutItem) :
    content_segments (a ++ b) = content_segments a ++ content_segments b := by
  simp [content_segments]

theorem content_segments_pad (st : LogState) (n : Int) :
    content_segments (pad_to_column st n).2 = [] := rfl

theorem content_segments_pad_item (s : List Char) :
    content_segments [OutItem.text WTag.pad s] = [] := rfl

theorem content_segments_time_item (s : List Char) :
    content_segments [OutItem.text WTag.time s] = [] := rfl

theorem content_segments_fname_item (s : List Char) :
    content_segments [OutItem.text WTag.fname s] = [] := rfl

theorem content_segments_level_item (s : List Char) :
    content_segments [OutItem.text WTag.level s] = [] := rfl

theorem content_segments_newline_item :
    content_segments [OutItem.newline] = [] := rfl

theorem content_segments_content_item (s : List Char) :
    content_segments [OutItem.text WTag.content s] = [s] := rfl

theorem content_segments_write_time (env : Env) (st : LogState) :
    content_segments (write_time env st).2 = [] := by
  by_cases hc : st.last_second = env.now
  · simp only [write_time, if_pos hc]
    exact content_segments_pad _ _
  · simp only [write_time, if_neg hc]
    cases hv : env.ts_valid
    · simp only [hv, Bool.false_eq_true, if_false]
      exact content_segments_pad _ _
    · simp only [hv, if_true]
      exact content_segments_time_item _

theorem content_segments_write_lines (width : Nat) (fname : List Char) :
    ∀ (ls : List (List Char)) (first : Bool) (st : LogState),
      content_segments (write_lines width fname ls first st).2 = ls := by
  intro ls
  induction ls with
  | nil => intro first st; rfl
  | cons l rest ih =>
    intro first st
    cases first
    · simp only [write_lines, Bool.false_eq_true, if_false, ws, add_newline, pad_to_column,
        content_segments_append, content_segments_pad_item, content_segments_content_item,
        content_segments_fname_item, content_segments_newline_item, ih]
      simp [content_segments]
    · simp only [write_lines, if_true, ws, add_newline, pad_to_column,
        content_segments_append, content_segments_pad_item, content_segments_content_item,
        content_segments_fname_item, content_segments_newline_item, ih]
      simp [content_segments]

/-- C2 (counterexample): the renderer normalizes the content before
wrapping, so a record whose content is a single tab character is emitted as
four spaces — re-joining the emitted segments does not reconstruct the
original record content. -/
theorem wrap_not_lossless_on_tabs :
    (log_impl ⟨22, 100, 0, true⟩ ⟨[], Level.info, ['\t']⟩ ⟨0, 100⟩).map
        (fun p => (content_segments p.2).flatten) =
      some (' ' :: ' ' :: ' ' :: ' ' :: []) ∧
    (' ' :: ' ' :: ' ' :: ' ' :: []) ≠ ['\t'] := by
  decide

/-- C2 (amended): for every record and every terminal width strictly larger
than the reserved columns (so the usable chunk width is positive), the
rendered content segments are exactly the chunk lines of the NORMALIZED
content (tabs expanded to four spaces, carriage returns removed), and
re-joining the chunks with the hard breaks restored reconstructs that
normalized content exactly; for content without tabs and carriage returns
this is the original content. -/
theorem wrap_lossless_normalized (env : Env) (r : Rec) (st : LogState)
    (h : 17 + byteLen r.file_name + 2 ≤ env.width) :
    ∃ st2 tr, log_impl env r st = some (st2, tr) ∧
      content_segments tr =
        ((chunksOf (env.width - 17 - byteLen r.file_name - 1)
          (normalize_content r.content)).map splitNl).flatten ∧
      ((chunksOf (env.width - 17 - byteLen r.file_name - 1)
          (normalize_content r.content)).map
            (fun ch => joinNl (splitNl ch))).flatten = normalize_content r.content := by
  have hcw : chunk_width_checked env.width (byteLen r.file_name) =
      some (env.width - 17 - byteLen r.file_name - 1) := by
    simp only [chunk_width_checked, if_pos (show 17 + byteLen r.file_name + 1 ≤ env.width by omega)]
  obtain ⟨w2, hw2⟩ : ∃ w2, env.width - 17 - byteLen r.file_name - 1 = w2 + 1 :=
    ⟨env.width - 17 - byteLen r.file_name - 2, by omega⟩
  rw [hw2] at hcw
  unfold log_impl
  rw [hcw]
  refine ⟨_, _, rfl, ?_, ?_⟩
  · rw [content_segments_append, content_segments_append, content_segments_append,
      content_segments_append]
    rw [content_segments_pad, content_segments_write_time, content_segments_pad]
    rw [show content_segments (write_level (pad_to_column (write_time env
        (pad_to_column st 0).1).1 11).1 r.level).2 = [] from rfl]
    rw [content_segments_write_lines, hw2]
    simp [log_lines]
  · rw [map_joinNl_splitNl]
    exact chunksOf_join _ (by omega) _

/-- C2 (witness): the lossless-wrap theorem at width 40 with origin suffix
`a.rs:5` and a content containing an embedded newline. -/
theorem wrap_lossless_normalized_witness :
    17 + byteLen ("a.rs:5".toList) + 2 ≤ 40 ∧
    ∃ st2 tr,
      log_impl ⟨40, 100, 0, true⟩ ⟨"a.rs:5".toList, Level.info, "hello\nworld".toList⟩
          ⟨0, 100⟩ = some (st2, tr) ∧
      content_segments tr =
        ((chunksOf (40 - 17 - byteLen ("a.rs:5".toList) - 1)
          (normalize_content ("hello\nworld".toList))).map splitNl).flatten ∧
      ((chunksOf (40 - 17 - byteLen ("a.rs:5".toList) - 1)
          (normalize_content ("hello\nworld".toList))).map
            (fun ch => joinNl (splitNl ch))).flatten =
        normalize_content ("hello\nworld".toList) :=
  ⟨by decide,
    wrap_lossless_normalized ⟨40, 100, 0, true⟩
      ⟨"a.rs:5".toList, Level.info, "hello\nworld".toList⟩ ⟨0, 100⟩ (by decide)⟩

/- ------------------------------------------------------------------ -/
/- C8: FIFO ordering of the async consumer.                            -/
/- ------------------------------------------------------------------ -/

theorem consume_cons (env : Env) (r : Rec) (rs : List Rec) (st : LogState) :
    consume env st (r :: rs) =
      (log_impl env r st).bind fun p =>
        (consume env p.1 rs).map fun q => (q.1, p.2 ++ q.2) := by
  cases hl : log_impl env r st with
  | none => simp [consume, hl]
  | some p =>
    obtain ⟨st1, tr1⟩ := p
    cases hc : consume env st1 rs with
    | none => simp [consume, hl, hc]
    | some q =>
      obtain ⟨st2, tr2⟩ := q
      simp [consume, hl, hc]

theorem consume_append (env : Env) :
    ∀ (xs ys : List Rec) (st : LogState),
      consume env st (xs ++ ys) =
        (consume env st xs).bind fun p =>
          (consume env p.1 ys).map fun q => (q.1, p.2 ++ q.2) := by
  intro xs
  induction xs with
  | nil =>
    intro ys st
    show consume env st ys = (consume env st ys).map fun q => (q.1, [] ++ q.2)
    cases consume env st ys with
    | none => rfl
    | some p => simp
  | cons r rs ih =>
    intro ys st
    simp only [List.cons_append, consume_cons, ih]
    cases log_impl env r st with
    | none => simp
    | some p =>
      simp only [Option.some_bind]
      cases consume env p.1 rs with
      | none => simp
      | some q =>
        simp only [Option.some_bind, Option.map_map, Option.map_some']
        cases consume env q.1 ys with
        | none => rfl
        | some u => simp [Function.comp, List.append_assoc]

/-- C8: FIFO ordering of the single async consumer.  The mpsc channel is
modelled as the list of records in enqueue order; whenever the consumer run
succeeds, its whole output decomposes as the outputs of the records in
queue order, so for records R1 enqueued (anywhere) before R2 the complete
render output of R1 appears before any output of R2. -/
theorem async_fifo_ordering (env : Env) (st0 : LogState) (xs ys zs : List Rec)
    (r1 r2 : Rec)
    (h : (consume env st0 (xs ++ r1 :: ys ++ r2 :: zs)).isSome = true) :
    ∃ sA tA sB t1 sC tB sD t2 sE tC,
      consume env st0 xs = some (sA, tA) ∧
      log_impl env r1 sA = some (sB, t1) ∧
      consume env sB ys = some (sC, tB) ∧
      log_impl env r2 sC = some (sD, t2) ∧
      consume env sD zs = some (sE, tC) ∧
      consume env st0 (xs ++ r1 :: ys ++ r2 :: zs) =
        some (sE, tA ++ t1 ++ tB ++ t2 ++ tC) := by
  simp only [consume_append, consume_cons] at h ⊢
  cases hxs : consume env st0 xs with
  | none => simp [hxs] at h
  | some pA =>
    obtain ⟨sA, tA⟩ := pA
    simp only [hxs, Option.some_bind] at h ⊢
    cases h1 : log_impl env r1 sA with
    | none => simp [h1] at h
    | some pB =>
      obtain ⟨sB, t1⟩ := pB
      simp only [h1, Option.some_bind] at h ⊢
      cases hys : consume env sB ys with
      | none => simp [hys] at h
      | some pC =>
        obtain ⟨sC, tB⟩ := pC
        simp only [hys, Option.some_bind, Option.map_some'] at h ⊢
        cases h2 : log_impl env r2 sC with
        | none => simp [h2] at h
        | some pD =>
          obtain ⟨sD, t2⟩ := pD
          simp only [h2, Option.some_bind] at h ⊢
          cases hzs : consume env sD zs with
          | none => simp [hzs] at h
          | some pE =>
            obtain ⟨sE, tC⟩ := pE
            simp only [hzs, Option.some_bind, Option.map_some'] at h ⊢
            exact ⟨sA, tA, sB, t1, sC, tB, sD, t2, sE, tC, rfl, h1, hys, h2, hzs,
              by simp⟩

/-- C8 (witness): the ordering theorem applied to two concrete records on a
width-30 terminal. -/
theorem async_fifo_ordering_witness :
    ∃ sA tA sB t1 sC tB sD t2 sE tC,
      consume ⟨30, 100, 0, true⟩ ⟨0, 100⟩ ([] : List Rec) = some (sA, tA) ∧
      log_impl ⟨30, 100, 0, true⟩ ⟨[], Level.info, ('a' :: 'b' :: [])⟩ sA = some (sB, t1) ∧
      consume ⟨30, 100, 0, true⟩ sB ([] : List Rec) = some (sC, tB) ∧
      log_impl ⟨30, 100, 0, true⟩ ⟨[], Level.error, ('c' :: 'd' :: [])⟩ sC = some (sD, t2) ∧
      consume ⟨30, 100, 0, true⟩ sD ([] : List Rec) = some (sE, tC) ∧
      consume ⟨30, 100, 0, true⟩ ⟨0, 100⟩
          ([] ++ ⟨[], Level.info, ('a' :: 'b' :: [])⟩ ::
            ([] : List Rec) ++ ⟨[], Level.error, ('c' :: 'd' :: [])⟩ :: ([] : List Rec)) =
        some (sE, tA ++ t1 ++ tB ++ t2 ++ tC) :=
  async_fifo_ordering ⟨30, 100, 0, true⟩ ⟨0, 100⟩ [] [] []
    ⟨[], Level.info, ('a' :: 'b' :: [])⟩ ⟨[], Level.error, ('c' :: 'd' :: [])⟩ (by decide)

/- ------------------------------------------------------------------ -/
/- C5 and C6: the wrap-aware JSON renderer.                            -/
/- ------------------------------------------------------------------ -/

theorem fname_count_append (a b : List OutItem) :
    fname_count (a ++ b) = fname_count a + fname_count b := by
  simp [fname_count]

theorem fname_count_nil : fname_count [] = 0 := rfl

theorem fname_count_pad_item (s : List Char) :
    fname_count [OutItem.text WTag.pad s] = 0 := rfl

theorem fname_count_content_item (s : List Char) :
    fname_count [OutItem.text WTag.content s] = 0 := rfl

theorem fname_count_fname_item (s : List Char) :
    fname_count [OutItem.text WTag.fname s] = 1 := rfl

theorem fname_count_newline_item : fname_count [OutItem.newline] = 0 := rfl

theorem fname_count_pad (st : LogState) (n : Int) :
    fname_count (pad_to_column st n).2 = 0 := rfl

theorem last_char_idx_single :
    ∀ (text : List Char) (avail acc : Nat),
      text.all (fun c => charBytes c = 1) = true →
      last_char_idx acc avail text =
        if avail = 0 ∨ text = [] then none
        else some (acc + (min avail text.length - 1)) := by
  intro text
  induction text with
  | nil =>
    intro avail acc _
    cases avail <;> simp [last_char_idx]
  | cons c cs ih =>
    intro avail acc hall
    simp only [List.all_cons, Bool.and_eq_true, decide_eq_true_eq] at hall
    cases avail with
    | zero => simp [last_char_idx]
    | succ a =>
      have htail : cs.all (fun c => charBytes c = 1) = true := by
        simp [List.all_eq_true]
        intro x hx
        have := hall.2
        simp [List.all_eq_true] at this
        exact this x hx
      simp only [last_char_idx]
      rw [ih a (acc + charBytes c) htail]
      rw [hall.1]
      by_cases hc : a = 0 ∨ cs = []
      · rw [if_pos hc]
        rw [if_neg (by simp)]
        have hmin : min (a + 1) (c :: cs).length = 1 := by
          rcases hc with hc | hc
          · subst hc; simp
          · subst hc; simp
        rw [hmin]
        simp
      · rw [if_neg hc]
        rw [if_neg (by simp)]
        push_neg at hc
        obtain ⟨ha, hcs⟩ := hc
        have hlen : 1 ≤ cs.length := by
          cases cs with
          | nil => exact absurd rfl hcs
          | cons x xs => simp
        have hmin : min (a + 1) (c :: cs).length = min a cs.length + 1 := by
          simp only [List.length_cons]
          omega
        rw [hmin]
        simp
        omega

theorem split_at_bytes_single :
    ∀ (n : Nat) (text : List Char),
      text.all (fun c => charBytes c = 1) = true →
      n ≤ text.length →
      split_at_bytes n text = some (text.take n, text.drop n) := by
  intro n
  induction n with
  | zero => intro text _ _; simp [split_at_bytes]
  | succ m ih =>
    intro text hall hle
    cases text with
    | nil => simp at hle
    | cons c cs =>
      simp only [List.all_cons, Bool.and_eq_true, decide_eq_true_eq] at hall
      have hmle : m ≤ cs.length := by simp at hle; omega
      simp only [split_at_bytes, hall.1]
      rw [if_pos (by omega)]
      rw [show m + 1 - 1 = m from rfl]
      rw [ih cs hall.2 hmle]
      simp

theorem all_single_drop (text : List Char) (k : Nat)
    (h : text.all (fun c => charBytes c = 1) = true) :
    (text.drop k).all (fun c => charBytes c = 1) = true := by
  simp only [List.all_eq_true] at h ⊢
  intro x hx
  exact h x (List.mem_of_mem_drop hx)

theorem byteLen_drop_single (text : List Char) (k : Nat)
    (h : text.all (fun c => charBytes c = 1) = true) :
    byteLen (text.drop k) = text.length - k := by
  rw [byteLen_of_single _ (all_single_drop text k h)]
  simp

theorem ws_fst_last (tag : WTag) (st : LogState) (text : List Char) :
    (ws tag st text).1.last_second = st.last_second := rfl

theorem pad_fst_last (st : LogState) (n : Int) :
    (pad_to_column st n).1.last_second = st.last_second := rfl

/-- After a newline and the pad to the content column, the cursor is at
column 17 and the cached second is unchanged. -/
theorem state_after_nl_pad (st : LogState) :
    (pad_to_column (add_newline st).1 17).1 = ⟨17, st.last_second⟩ := by
  simp [pad_to_column, add_newline, ws, write_string, byteLen_replicate_space]
  rfl

/-- One unfolding of the wrap branch of `safe_wrap_go`: under the branch
conditions, and given the result of the recursive call on the byte
remainder (which restarts at the content column with the suffix disabled),
the call succeeds; its trace is the fitting prefix as a content write,
padding, the origin suffix exactly when requested, the newline, the
continuation padding and the recursion's trace; its flag is the
or-combination. -/
theorem safe_wrap_go_wrap_step (tw rp fuel : Nat) (st : LogState)
    (text fname : List Char) (pf : Bool) (k : Nat) (st6 : LogState)
    (tr6 : List OutItem) (r6 : Bool)
    (hrp : rp ≤ tw)
    (hbr : byteLen text ≥ tw - rp + 1 - st.cursor_pos)
    (hsp : (last_char_idx 0 (tw - rp + 1 - st.cursor_pos) text).getD 0 = k - 1)
    (hk1 : 1 ≤ k)
    (hsplit : split_at_bytes k text = some (text.take k, text.drop k))
    (hrec : safe_wrap_go tw rp fuel ⟨17, st.last_second⟩ (text.drop k) [] false =
      some (st6, tr6, r6)) :
    safe_wrap_go tw rp (fuel + 1) st text fname pf =
      some (st6, wrap_trace tw rp st (text.take k) fname pf tr6, r6 || pf) := by
  cases pf
  · simp only [safe_wrap_go, if_pos hrp, hsp, if_pos hbr]
    rw [show k - 1 + 1 = k from by omega, hsplit]
    simp only [Bool.false_eq_true, if_false, state_after_nl_pad, ws_fst_last,
      pad_fst_last, hrec]
    simp [ws, pad_to_column, add_newline, write_string, wrap_trace]
  · simp only [safe_wrap_go, if_pos hrp, hsp, if_pos hbr]
    rw [show k - 1 + 1 = k from by omega, hsplit]
    simp only [if_true, state_after_nl_pad, ws_fst_last, pad_fst_last, hrec]
    simp [ws, pad_to_column, add_newline, write_string, wrap_trace]

theorem content_segments_wrap_trace (tw rp : Nat) (st : LogState)
    (pre fname : List Char) (pf : Bool) (tr6 : List OutItem) :
    (content_segments (wrap_trace tw rp st pre fname pf tr6)).flatten =
      pre ++ (content_segments tr6).flatten := by
  cases pf <;> simp [wrap_trace, content_segments_append, content_segments]

theorem fname_count_wrap_trace (tw rp : Nat) (st : LogState)
    (pre fname : List Char) (pf : Bool) (tr6 : List OutItem) :
    fname_count (wrap_trace tw rp st pre fname pf tr6) =
      (if pf then 1 else 0) + fname_count tr6 := by
  cases pf
  · simp [wrap_trace, fname_count_append, fname_count]
  · simp [wrap_trace, fname_count_append, fname_count]
    omega

/-- Full behaviour of `safe_wrap_go` on single-byte text when the terminal
is wide enough (`right_pad + 17 ≤ term_w`, so the content column lies
strictly inside the usable width): the call never panics, it returns
whether it printed the origin suffix (it does exactly when asked to and a
wrap occurred), it prints the origin suffix exactly that often, the
content writes spell the input text exactly, and the final cursor is back
inside the usable width. -/
theorem safe_wrap_spec :
    ∀ (fuel tw rp : Nat) (st : LogState) (text fname : List Char) (pf : Bool),
      rp + 17 ≤ tw →
      text.all (fun c => charBytes c = 1) = true →
      (text ≠ [] ∨ st.cursor_pos < tw - rp + 1) →
      byteLen text < fuel →
      ∃ st2 tr,
        safe_wrap_go tw rp fuel st text fname pf =
          some (st2, tr, pf && decide (byteLen text ≥ tw - rp + 1 - st.cursor_pos)) ∧
        (content_segments tr).flatten = text ∧
        fname_count tr =
          (if pf && decide (byteLen text ≥ tw - rp + 1 - st.cursor_pos) then 1 else 0) ∧
        st2.cursor_pos < tw - rp + 1 := by
  intro fuel
  induction fuel with
  | zero =>
    intro tw rp st text fname pf h1 h2 h3 hf
    exact absurd hf (by omega)
  | succ n ih =>
    intro tw rp st text fname pf h1 h2 h3 hf
    have hrp : rp ≤ tw := by omega
    have hlen : byteLen text = text.length := byteLen_of_single text h2
    by_cases hbr : byteLen text ≥ tw - rp + 1 - st.cursor_pos
    · -- wrap branch
      have htext : text ≠ [] := by
        rcases h3 with h3 | h3
        · exact h3
        · intro hnil
          subst hnil
          simp [byteLen] at hbr
          omega
      have htlen : 1 ≤ text.length := by
        cases text with
        | nil => exact absurd rfl htext
        | cons x xs => simp
      set k := max 1 (min (tw - rp + 1 - st.cursor_pos) text.length) with hk
      have hk1 : 1 ≤ k := by omega
      have hk2 : k ≤ text.length := by omega
      have hsp : (last_char_idx 0 (tw - rp + 1 - st.cursor_pos) text).getD 0 = k - 1 := by
        rw [last_char_idx_single text _ 0 h2]
        by_cases hav : tw - rp + 1 - st.cursor_pos = 0
        · rw [if_pos (Or.inl hav)]
          simp only [Option.getD_none]
          omega
        · rw [if_neg (by push_neg; exact ⟨hav, htext⟩)]
          simp only [Option.getD_some]
          omega
      have hsplit : split_at_bytes k text = some (text.take k, text.drop k) :=
        split_at_bytes_single k text h2 hk2
      obtain ⟨st6, tr6, heq, hcontent, hcount, hcur⟩ :=
        ih tw rp ⟨17, st.last_second⟩ (text.drop k) [] false
          h1 (all_single_drop _ _ h2)
          (Or.inr (by show (17 : Nat) < tw - rp + 1; omega))
          (by rw [byteLen_drop_single _ _ h2]; omega)
      rw [show (false && decide (byteLen (text.drop k) ≥ tw - rp + 1 -
          (⟨17, st.last_second⟩ : LogState).cursor_pos)) = false from by simp] at heq
      have hcount6 : fname_count tr6 = 0 := by
        rw [hcount]
        simp
      have hstep :=
        safe_wrap_go_wrap_step tw rp n st text fname pf k st6 tr6 false
          hrp hbr hsp hk1 hsplit heq
      refine ⟨st6, wrap_trace tw rp st (text.take k) fname pf tr6, ?_, ?_, ?_, hcur⟩
      · rw [hstep]
        have hret : (false || pf) =
            (pf && decide (byteLen text ≥ tw - rp + 1 - st.cursor_pos)) := by
          simp [hbr]
        rw [hret]
      · rw [content_segments_wrap_trace, hcontent]
        exact List.take_append_drop _ _
      · rw [fname_count_wrap_trace, hcount6]
        simp [hbr]
    · -- the text fits: write it whole
      refine ⟨write_string st text, [OutItem.text WTag.content text], ?_, ?_, ?_, ?_⟩
      · simp only [safe_wrap_go, if_pos hrp, if_neg hbr]
        simp [ws, hbr]
      · simp [content_segments]
      · simp [fname_count, hbr]
      · simp only [write_string]
        simp only [hlen]
        omega

/-- Behaviour of the token loop of `print_json_color` on non-empty
single-byte token texts with the terminal wide enough: it never panics, the
returned flag can only stay set while the suffix has not been printed, and
the number of origin-suffix writes in the trace is 1 exactly when the
incoming flag was set and the outgoing flag is clear (0 otherwise). -/
theorem print_json_go_spec (tw : Nat) (fname : List Char) :
    ∀ (toks : List JsonToken) (st : LogState) (spf : Bool),
      byteLen fname + 17 ≤ tw →
      (toks.all (fun t => !(token_text t).isEmpty &&
        (token_text t).all (fun c => charBytes c = 1))) = true →
      st.cursor_pos < tw - byteLen fname + 1 →
      ∃ st2 tr spf2,
        print_json_go tw fname toks st spf = some (st2, tr, spf2) ∧
        fname_count tr = (if spf then (if spf2 then 0 else 1) else 0) ∧
        (spf = false → spf2 = false) ∧
        st2.cursor_pos < tw - byteLen fname + 1 := by
  intro toks
  induction toks with
  | nil =>
    intro st spf h1 h2 hcur
    refine ⟨st, [], spf, rfl, ?_, fun h => h, hcur⟩
    cases spf <;> simp [fname_count]
  | cons t ts ih =>
    intro st spf h1 h2 hcur
    simp only [List.all_cons, Bool.and_eq_true] at h2
    obtain ⟨⟨hne, hsb⟩, hts⟩ := h2
    have hnenil : token_text t ≠ [] := by
      intro hn
      rw [hn] at hne
      simp at hne
    obtain ⟨st1, tr1, heq1, hc1, hf1, hcur1⟩ :=
      safe_wrap_spec (byteLen (token_text t) + 1) tw (byteLen fname) st (token_text t)
        fname spf h1 hsb (Or.inl hnenil) (by omega)
    obtain ⟨st2, tr2, spf2, heq2, hf2, himp2, hcur2⟩ :=
      ih st1
        (xor (spf && decide (byteLen (token_text t) ≥
          tw - byteLen fname + 1 - st.cursor_pos)) spf)
        h1 hts hcur1
    refine ⟨st2, tr1 ++ tr2, spf2, ?_, ?_, ?_, hcur2⟩
    · simp only [print_json_go, safe_wrap_print_json]
      rw [heq1]
      simp only []
      rw [heq2]
    · rw [fname_count_append, hf1, hf2]
      cases spf
      · have h0 : spf2 = false := himp2 (by simp)
        simp [h0]
      · cases hW : decide (byteLen (token_text t) ≥
            tw - byteLen fname + 1 - st.cursor_pos)
        · simp
        · have h0 : spf2 = false := himp2 (by rw [hW]; simp)
          simp [h0]
    · intro hspf
      subst hspf
      exact himp2 (by simp)

/-- C5 (counterexample): at terminal width 20 with an empty origin suffix,
rendering the single string-literal token `"ééé"` panics — the byte slice
`text[..=split_point]` of json.rs lands inside the second two-byte
character — so the whole render aborts and the origin suffix is written
zero times, not exactly once. -/
theorem print_json_color_multibyte_panic :
    print_json_color 20 []
      [⟨TokenKind.lit (Literal.stringLit ('é' :: 'é' :: 'é' :: [])), []⟩] ⟨17, 0⟩ =
      none := by
  decide

/-- C5 (amended): for token streams whose rendered token texts are
non-empty and single-byte, with the terminal at least 17 columns wider
than the origin suffix and rendering starting at the content column,
`print_json_color` completes and writes the origin suffix EXACTLY once:
at the first wrap if any token wraps, and right-aligned after all tokens
otherwise. -/
theorem print_json_color_end_eq (tw : Nat) (fname : List Char)
    (toks : List JsonToken) (st st1 : LogState) (tr : List OutItem)
    (heq : print_json_go tw fname toks st true = some (st1, tr, true))
    (hle : byteLen fname ≤ tw) :
    print_json_color tw fname toks st =
      some ((ws WTag.fname (pad_to_column st1 (((tw - byteLen fname : Nat) : Int))).1
          fname).1,
        tr ++ (pad_to_column st1 (((tw - byteLen fname : Nat) : Int))).2 ++
          (ws WTag.fname (pad_to_column st1 (((tw - byteLen fname : Nat) : Int))).1
            fname).2) := by
  unfold print_json_color
  rw [heq]
  simp [hle]

theorem origin_suffix_exactly_once (tw : Nat) (fname : List Char)
    (toks : List JsonToken) (st : LogState)
    (h1 : byteLen fname + 17 ≤ tw)
    (h2 : (toks.all (fun t => !(token_text t).isEmpty &&
      (token_text t).all (fun c => charBytes c = 1))) = true)
    (h3 : st.cursor_pos = 17) :
    ∃ st2 tr, print_json_color tw fname toks st = some (st2, tr) ∧
      fname_count tr = 1 := by
  obtain ⟨st2, tr, spf2, heq, hcount, _, _⟩ :=
    print_json_go_spec tw fname toks st true h1 h2 (by omega)
  cases spf2
  · refine ⟨st2, tr, ?_, ?_⟩
    · unfold print_json_color
      rw [heq]
      rfl
    · simpa using hcount
  · rw [print_json_color_end_eq tw fname toks st st2 tr heq (by omega)]
    refine ⟨_, _, rfl, ?_⟩
    rw [fname_count_append, fname_count_append, fname_count_pad]
    rw [show fname_count (ws WTag.fname (pad_to_column st2
        (((tw - byteLen fname : Nat) : Int))).1 fname).2 = 1 from rfl]
    simp at hcount
    omega

/-- C5 (witness): exactly-once applied to a concrete two-token stream whose
first token wraps at width 40. -/
theorem origin_suffix_exactly_once_witness :
    ∃ st2 tr,
      print_json_color 40 ("a.rs:5".toList)
        [⟨TokenKind.lit (Literal.stringLit
            ("abcdefghijklmnopqrstuvwxyz0123456789".toList)), []⟩,
          ⟨TokenKind.op Operator.commaOp, []⟩] ⟨17, 0⟩ = some (st2, tr) ∧
      fname_count tr = 1 :=
  origin_suffix_exactly_once 40 ("a.rs:5".toList)
    [⟨TokenKind.lit (Literal.stringLit ("abcdefghijklmnopqrstuvwxyz0123456789".toList)), []⟩,
      ⟨TokenKind.op Operator.commaOp, []⟩] ⟨17, 0⟩ (by decide) (by decide) rfl

/-- C6 (counterexample): the lib.rs variant `wrap_print_json` is NOT
lossless: at width 20 with the cursor at the content column, a 22-character
token writes characters 0-2, then recurses on the text from byte 20 — the
characters at positions 3 through 19 are dropped, so re-joining the written
segments gives 5 characters instead of 22. -/
theorem wrap_print_json_drops_characters :
    (wrap_print_json 20 ⟨17, 0⟩ ("abcdefghijklmnopqrstuv".toList)).map
        (fun p => (content_segments p.2).flatten) =
      some ('a' :: 'b' :: 'c' :: 'u' :: 'v' :: []) ∧
    ('a' :: 'b' :: 'c' :: 'u' :: 'v' :: []) ≠ ("abcdefghijklmnopqrstuv".toList) := by
  decide

/-- C6 (amended): for the json.rs renderer `safe_wrap_print_json`, on a
non-empty single-byte token text with the terminal at least 17 columns
wider than the right pad, the concatenation of the content segments across
all physical lines is exactly the token text: every character is printed
exactly once, in order, and the recursion continues on the exact
remainder. -/
theorem safe_wrap_midtoken_lossless (tw rp : Nat) (st : LogState)
    (text fname : List Char) (pf : Bool)
    (h1 : rp + 17 ≤ tw)
    (h2 : text.all (fun c => charBytes c = 1) = true)
    (h3 : text ≠ []) :
    ∃ st2 tr ret, safe_wrap_print_json tw rp st text fname pf = some (st2, tr, ret) ∧
      (content_segments tr).flatten = text := by
  obtain ⟨st2, tr, heq, hc, _, _⟩ :=
    safe_wrap_spec (byteLen text + 1) tw rp st text fname pf h1 h2 (Or.inl h3)
      (by omega)
  exact ⟨st2, tr, _, heq, hc⟩

/-- C6 (witness): mid-token losslessness applied to a 40-character token at
width 40 with right pad 6 (the token wraps across lines). -/
theorem safe_wrap_midtoken_lossless_witness :
    ∃ st2 tr ret,
      safe_wrap_print_json 40 6 ⟨17, 0⟩
        ("abcdefghijklmnopqrstuvwxyz0123456789ABCD".toList) ("a.rs:5".toList) true =
        some (st2, tr, ret) ∧
      (content_segments tr).flatten = ("abcdefghijklmnopqrstuvwxyz0123456789ABCD".toList) :=
  safe_wrap_midtoken_lossless 40 6 ⟨17, 0⟩
    ("abcdefghijklmnopqrstuvwxyz0123456789ABCD".toList) ("a.rs:5".toList) true
    (by decide) (by decide) (by decide)

theorem charBytes_digit (m : Nat) (h : m ≤ 9) :
    charBytes (Char.ofNat (48 + m)) = 1 := by
  interval_cases m <;> rfl

theorem byteLen_two_digits (n : Nat) (h : n ≤ 99) :
    byteLen (two_digits n) = 2 := by
  have h1 : n / 10 ≤ 9 := by omega
  have h2 : n % 10 ≤ 9 := Nat.le_of_lt_succ (Nat.mod_lt n (by omega))
  simp [two_digits, byteLen_cons, charBytes_digit _ h1, charBytes_digit _ h2, byteLen_nil]

theorem byteLen_time_text (t : Int) : byteLen (time_text t) = 11 := by
  have hd : (t.emod 86400).toNat < 86400 := by
    have h1 : 0 ≤ t.emod 86400 := Int.emod_nonneg t (by omega)
    have h2 : t.emod 86400 < 86400 := Int.emod_lt_of_pos t (by omega)
    omega
  have b1 : (t.emod 86400).toNat / 3600 ≤ 99 := by omega
  have b2 : (t.emod 86400).toNat % 3600 / 60 ≤ 99 := by
    have : (t.emod 86400).toNat % 3600 < 3600 := Nat.mod_lt _ (by omega)
    omega
  have b3 : (t.emod 86400).toNat % 60 ≤ 99 := by
    have : (t.emod 86400).toNat % 60 < 60 := Nat.mod_lt _ (by omega)
    omega
  simp only [time_text, byteLen_cons, byteLen_append]
  rw [byteLen_two_digits _ b1, byteLen_two_digits _ b2, byteLen_two_digits _ b3]
  rfl

/-- C7: when the cached second equals the current second, `write_time` only
pads to LEVEL_COLUMN — its entire output is eleven spaces, no timestamp
formatting — and in every branch (fresh timestamp, cached, or
`from_timestamp` failure) the time column occupies exactly 11 columns and
leaves the cursor at column 11, so two records logged within the same
second get time-column output of identical width while only the first
formats a timestamp. -/
theorem write_time_caching (env : Env) (st : LogState) (h : st.cursor_pos = 0) :
    (st.last_second = env.now →
      write_time env st =
        ({ st with cursor_pos := 11 }, [OutItem.text WTag.pad (List.replicate 11 ' ')])) ∧
    (write_time env st).1.cursor_pos = 11 ∧
    out_width (write_time env st).2 = 11 := by
  by_cases hc : st.last_second = env.now
  · constructor
    · intro _
      simp [write_time, hc, pad_to_column, ws, write_string, h, byteLen_replicate_space]
      decide
    · simp [write_time, hc, pad_to_column, ws, write_string, h, byteLen_replicate_space,
        out_width]
      decide
  · constructor
    · intro hcontr; exact absurd hcontr hc
    · cases hv : env.ts_valid
      · simp [write_time, hc, hv, pad_to_column, ws, write_string, h,
          byteLen_replicate_space, out_width, byteLen_time_text]
        decide
      · simp [write_time, hc, hv, pad_to_column, ws, write_string, h,
          byteLen_replicate_space, out_width, byteLen_time_text]

/-- C7 (witness): the caching theorem applied at a concrete cached state:
the cached branch emits exactly eleven spaces and leaves the cursor at
column 11. -/
theorem write_time_caching_witness :
    ((100 : Int) = (100 : Int) →
      write_time ⟨80, 100, 0, true⟩ ⟨0, 100⟩ =
        (⟨11, 100⟩, [OutItem.text WTag.pad (List.replicate 11 ' ')])) ∧
    (write_time ⟨80, 100, 0, true⟩ ⟨0, 100⟩).1.cursor_pos = 11 ∧
    out_width (write_time ⟨80, 100, 0, true⟩ ⟨0, 100⟩).2 = 11 :=
  write_time_caching ⟨80, 100, 0, true⟩ ⟨0, 100⟩ rfl

/- ------------------------------------------------------------------ -/
/- C10: no severity filtering in the backend.                          -/
/- ------------------------------------------------------------------ -/

/-- C10: `enabled` returns true for every severity, the backend's `log`
renders every record with no severity check, and the minimum severity given
to `init` only becomes the facade's global max level. -/
theorem backend_no_severity_filter :
    (∀ l : Level, enabled l = true) ∧
    (∀ (env : Env) (r : Rec) (st : LogState), rich_log env r st = log_impl env r st) ∧
    (∀ lf : LevelFilter, init lf = some ⟨lf⟩) :=
  ⟨fun _ => rfl, fun _ _ _ => rfl, fun _ => rfl⟩

/- ------------------------------------------------------------------ -/
/- C3: JSON tokenization round-trip.                                   -/
/- ------------------------------------------------------------------ -/

theorem tok_contents_null : tok_contents Json.null = ('n' :: 'u' :: 'l' :: 'l' :: []) := rfl

theorem tok_contents_bool (b : Bool) :
    tok_contents (Json.bool b) =
      (if b then ('t' :: 'r' :: 'u' :: 'e' :: []) else ('f' :: 'a' :: 'l' :: 's' :: 'e' :: [])) := by
  cases b <;> rfl

theorem tok_contents_num (s : List Char) : tok_contents (Json.num s) = s := by
  simp [tok_contents, tokenize_json_value]

theorem tok_contents_str (s : List Char) :
    tok_contents (Json.str s) = '"' :: s ++ ['"'] := by
  simp [tok_contents, tokenize_json_value]

theorem tok_contents_arr (es : JsonArr) :
    tok_contents (Json.arr es) = '[' :: contents_elems es ++ [']'] := by
  simp [tok_contents, tokenize_json_value, contents_elems]

theorem tok_contents_obj (ms : JsonObj) :
    tok_contents (Json.obj ms) = lbrace :: contents_members ms ++ [rbrace] := by
  simp [tok_contents, tokenize_json_value, contents_members]

theorem contents_elems_nil : contents_elems JsonArr.nil = [] := rfl

theorem contents_elems_single (v : Json) :
    contents_elems (JsonArr.cons v JsonArr.nil) = tok_contents v := by
  simp [contents_elems, tok_elems, tok_contents]

theorem contents_elems_cons (v w : Json) (tl : JsonArr) :
    contents_elems (JsonArr.cons v (JsonArr.cons w tl)) =
      tok_contents v ++ ',' :: contents_elems (JsonArr.cons w tl) := by
  simp [contents_elems, tok_elems, tok_contents]

theorem contents_members_single (k : List Char) (v : Json) :
    contents_members (JsonObj.cons k v JsonObj.nil) =
      '"' :: k ++ '"' :: ':' :: tok_contents v := by
  simp [contents_members, tok_members, tok_contents]

theorem contents_members_cons (k : List Char) (v : Json) (k2 : List Char) (v2 : Json)
    (tl : JsonObj) :
    contents_members (JsonObj.cons k v (JsonObj.cons k2 v2 tl)) =
      '"' :: k ++ '"' :: ':' :: tok_contents v ++
        ',' :: contents_members (JsonObj.cons k2 v2 tl) := by
  simp [contents_members, tok_members, tok_contents]

theorem expect_chars_append (pat rest : List Char) :
    expect_chars pat (pat ++ rest) = some rest := by
  induction pat with
  | nil => rfl
  | cons p ps ih => simp [expect_chars, ih]

theorem parse_string_body_round (s rest : List Char) (h : str_ok s = true) :
    parse_string_body (s ++ '"' :: rest) = some (s, rest) := by
  induction s with
  | nil => simp [parse_string_body]
  | cons c cs ih =>
    simp only [str_ok, List.all_cons, Bool.and_eq_true] at h
    obtain ⟨hc, hcs⟩ := h
    simp only [Bool.not_eq_eq_eq_not, Bool.not_true, Bool.or_eq_false_iff,
      decide_eq_false_iff_not] at hc
    simp only [List.cons_append, parse_string_body, if_neg hc.1.1]
    rw [if_neg (by simp [hc.1.2, hc.2])]
    rw [show cs.append ('"' :: rest) = cs ++ '"' :: rest from rfl, ih hcs]

theorem num_lit_all (s : List Char) (h : is_num_lit s = true) :
    s.all is_num_char = true := by
  simp only [is_num_lit, Bool.and_eq_true] at h
  exact h.1

theorem num_head (s : List Char) (h : is_num_lit s = true) :
    ∃ c t, s = c :: t ∧ (c = '-' ∨ is_digit c = true) := by
  cases s with
  | nil => exact absurd h (by decide)
  | cons c t =>
    refine ⟨c, t, rfl, ?_⟩
    by_cases hm : c = '-'
    · exact Or.inl hm
    · right
      simp only [is_num_lit, Bool.and_eq_true] at h
      replace h2 := of_decide_eq_true h.2
      rw [show sign_split (c :: t) = c :: t from by simp [sign_split, hm]] at h2
      cases hd : is_digit c with
      | true => rfl
      | false =>
        exfalso
        have h0 : ¬(c = '0') := by
          intro hh
          subst hh
          exact absurd hd (by decide)
        rw [show int_part (c :: t) = none from by simp [int_part, h0, hd]] at h2
        simp at h2

theorem num_first_char_ne (c : Char) (h : c = '-' ∨ is_digit c = true) :
    ¬(c = 'n') ∧ ¬(c = 't') ∧ ¬(c = 'f') ∧ ¬(c = '"') ∧ ¬(c = '[') ∧ ¬(c = lbrace) := by
  rcases h with h | h
  · subst h
    exact ⟨by decide, by decide, by decide, by decide, by decide, by decide⟩
  · refine ⟨?_, ?_, ?_, ?_, ?_, ?_⟩ <;>
      (intro hc; subst hc; exact absurd h (by decide))

theorem tok_head_ne_closers (v : Json) (hw : json_wf v = true) :
    ∃ c t, tok_contents v = c :: t ∧ ¬(c = ']') ∧ ¬(c = rbrace) := by
  cases v with
  | null => exact ⟨'n', _, tok_contents_null, by decide, by decide⟩
  | bool b =>
    cases b
    · exact ⟨'f', _, by rw [tok_contents_bool]; rfl, by decide, by decide⟩
    · exact ⟨'t', _, by rw [tok_contents_bool]; rfl, by decide, by decide⟩
  | num s =>
    obtain ⟨c, t, hs, hc⟩ := num_head s hw
    refine ⟨c, t, by rw [tok_contents_num, hs], ?_, ?_⟩
    · rcases hc with hc | hc
      · subst hc; decide
      · intro hh; subst hh; exact absurd hc (by decide)
    · rcases hc with hc | hc
      · subst hc; decide
      · intro hh; subst hh; exact absurd hc (by decide)
  | str s =>
    refine ⟨'"', s ++ ['"'], ?_, by decide, by decide⟩
    rw [tok_contents_str]
    rfl
  | arr es =>
    refine ⟨'[', contents_elems es ++ [']'], ?_, by decide, by decide⟩
    rw [tok_contents_arr]
    rfl
  | obj ms =>
    refine ⟨lbrace, contents_members ms ++ [rbrace], ?_, by decide, by decide⟩
    rw [tok_contents_obj]
    rfl

theorem takeWhile_dropWhile_append (s rest : List Char)
    (hall : s.all is_num_char = true) (hrest : delim_ok rest = true) :
    (s ++ rest).takeWhile is_num_char = s ∧
      (s ++ rest).dropWhile is_num_char = rest := by
  induction s with
  | nil =>
    cases rest with
    | nil => simp
    | cons c cs =>
      simp only [delim_ok, Bool.not_eq_eq_eq_not, Bool.not_true] at hrest
      simp [List.takeWhile_cons, List.dropWhile_cons, hrest]
  | cons a as ih =>
    simp only [List.all_cons, Bool.and_eq_true] at hall
    have := ih hall.2
    simp [List.takeWhile_cons, List.dropWhile_cons, hall.1, this.1, this.2]

theorem parse_value_null (f : Nat) (rest : List Char) :
    parse_value (f + 1) ('n' :: 'u' :: 'l' :: 'l' :: rest) = some (Json.null, rest) := by
  simp [parse_value, expect_chars]

theorem parse_value_true (f : Nat) (rest : List Char) :
    parse_value (f + 1) ('t' :: 'r' :: 'u' :: 'e' :: rest) = some (Json.bool true, rest) := by
  simp [parse_value, expect_chars]

theorem parse_value_false (f : Nat) (rest : List Char) :
    parse_value (f + 1) ('f' :: 'a' :: 'l' :: 's' :: 'e' :: rest) =
      some (Json.bool false, rest) := by
  simp [parse_value, expect_chars]

theorem parse_value_string (f : Nat) (s rest : List Char) (h : str_ok s = true) :
    parse_value (f + 1) ('"' :: (s ++ '"' :: rest)) = some (Json.str s, rest) := by
  simp [parse_value, parse_string_body_round s rest h]

theorem parse_value_num (f : Nat) (s rest : List Char) (h : is_num_lit s = true)
    (hd : delim_ok rest = true) :
    parse_value (f + 1) (s ++ rest) = some (Json.num s, rest) := by
  obtain ⟨c, t, hs, hc⟩ := num_head s h
  obtain ⟨n1, n2, n3, n4, n5, n6⟩ := num_first_char_ne c hc
  subst hs
  have hspan := takeWhile_dropWhile_append (c :: t) rest (num_lit_all _ h) hd
  simp only [List.cons_append, parse_value, if_neg n1, if_neg n2, if_neg n3, if_neg n4,
    if_neg n5, if_neg n6]
  rw [show c :: (t ++ rest) = (c :: t) ++ rest from rfl]
  rw [hspan.1, hspan.2, if_pos h]

theorem parse_value_arr_nil (f : Nat) (rest : List Char) :
    parse_value (f + 1) ('[' :: ']' :: rest) = some (Json.arr JsonArr.nil, rest) := by
  simp [parse_value]

theorem parse_value_arr_go (f : Nat) (c0 : Char) (cs : List Char) (h : ¬(c0 = ']')) :
    parse_value (f + 1) ('[' :: c0 :: cs) =
      (parse_elements f (c0 :: cs)).map (fun p => (Json.arr p.1, p.2)) := by
  simp [parse_value, h]

theorem parse_value_obj_nil (f : Nat) (rest : List Char) :
    parse_value (f + 1) (lbrace :: rbrace :: rest) = some (Json.obj JsonObj.nil, rest) := by
  simp only [parse_value]
  rw [if_neg (by decide : ¬(lbrace = 'n')), if_neg (by decide : ¬(lbrace = 't')),
    if_neg (by decide : ¬(lbrace = 'f')), if_neg (by decide : ¬(lbrace = '"')),
    if_neg (by decide : ¬(lbrace = '['))]
  simp

theorem parse_value_obj_go (f : Nat) (c0 : Char) (cs : List Char) (h : ¬(c0 = rbrace)) :
    parse_value (f + 1) (lbrace :: c0 :: cs) =
      (parse_members f (c0 :: cs)).map (fun p => (Json.obj p.1, p.2)) := by
  simp only [parse_value]
  rw [if_neg (by decide : ¬(lbrace = 'n')), if_neg (by decide : ¬(lbrace = 't')),
    if_neg (by decide : ¬(lbrace = 'f')), if_neg (by decide : ¬(lbrace = '"')),
    if_neg (by decide : ¬(lbrace = '['))]
  simp [h]

theorem parse_elements_last (f : Nat) (input rest : List Char) (v : Json)
    (h : parse_value f input = some (v, ']' :: rest)) :
    parse_elements (f + 1) input = some (JsonArr.cons v JsonArr.nil, rest) := by
  simp [parse_elements, h]

theorem parse_elements_more (f : Nat) (input rest : List Char) (v : Json)
    (h : parse_value f input = some (v, ',' :: rest)) :
    parse_elements (f + 1) input =
      (parse_elements f rest).map (fun p => (JsonArr.cons v p.1, p.2)) := by
  simp [parse_elements, h]

theorem parse_members_last (f : Nat) (k : List Char) (hk : str_ok k = true)
    (body rest : List Char) (v : Json)
    (h : parse_value f body = some (v, rbrace :: rest)) :
    parse_members (f + 1) ('"' :: (k ++ '"' :: ':' :: body)) =
      some (JsonObj.cons k v JsonObj.nil, rest) := by
  simp [parse_members, parse_string_body_round k (':' :: body) hk, h,
    show ¬(rbrace = ',') from by decide]

theorem parse_members_more (f : Nat) (k : List Char) (hk : str_ok k = true)
    (body rest : List Char) (v : Json)
    (h : parse_value f body = some (v, ',' :: rest)) :
    parse_members (f + 1) ('"' :: (k ++ '"' :: ':' :: body)) =
      (parse_members f rest).map (fun p => (JsonObj.cons k v p.1, p.2)) := by
  simp [parse_members, parse_string_body_round k (':' :: body) hk, h]

theorem sizeJ_pos (v : Json) : 1 ≤ sizeJ v := by
  cases v <;> simp [sizeJ]

/-- The reference parser inverts the tokenizer: on the token contents of a
well-formed value followed by any non-number-start remainder, `parse_value`
returns exactly that value (and similarly for the element and member
loops), given fuel at least the value's size. -/
theorem parse_round_all : ∀ n : Nat,
    (∀ v : Json, sizeJ v = n → json_wf v = true →
      ∀ (fuel : Nat) (rest : List Char), sizeJ v ≤ fuel → delim_ok rest = true →
        parse_value fuel (tok_contents v ++ rest) = some (v, rest)) ∧
    (∀ es : JsonArr, es ≠ JsonArr.nil → sizeA es = n → wf_elems es = true →
      ∀ (fuel : Nat) (rest : List Char), sizeA es ≤ fuel →
        parse_elements fuel (contents_elems es ++ ']' :: rest) = some (es, rest)) ∧
    (∀ ms : JsonObj, ms ≠ JsonObj.nil → sizeO ms = n → wf_members ms = true →
      ∀ (fuel : Nat) (rest : List Char), sizeO ms ≤ fuel →
        parse_members fuel (contents_members ms ++ rbrace :: rest) = some (ms, rest)) := by
  intro n
  induction n using Nat.strong_induction_on with
  | _ n ih =>
    refine ⟨?_, ?_, ?_⟩
    · intro v hsz hwf fuel rest hfuel hdelim
      obtain ⟨f, rfl⟩ : ∃ f, fuel = f + 1 :=
        ⟨fuel - 1, by have := sizeJ_pos v; omega⟩
      cases v with
      | null =>
        rw [tok_contents_null]
        simp only [List.cons_append, List.nil_append]
        exact parse_value_null f rest
      | bool b =>
        cases b
        · rw [show tok_contents (Json.bool false) =
              ('f' :: 'a' :: 'l' :: 's' :: 'e' :: []) from rfl]
          simp only [List.cons_append, List.nil_append]
          exact parse_value_false f rest
        · rw [show tok_contents (Json.bool true) =
              ('t' :: 'r' :: 'u' :: 'e' :: []) from rfl]
          simp only [List.cons_append, List.nil_append]
          exact parse_value_true f rest
      | num s =>
        rw [tok_contents_num]
        exact parse_value_num f s rest (by simpa [json_wf] using hwf) hdelim
      | str s =>
        rw [tok_contents_str]
        rw [show (('"' :: s) ++ ['"']) ++ rest = '"' :: (s ++ '"' :: rest) from by simp]
        exact parse_value_string f s rest (by simpa [json_wf] using hwf)
      | arr es =>
        have hwfe : wf_elems es = true := by simpa [json_wf] using hwf
        rw [tok_contents_arr]
        rw [show (('[' :: contents_elems es) ++ [']']) ++ rest =
            '[' :: (contents_elems es ++ ']' :: rest) from by simp]
        cases es with
        | nil =>
          rw [contents_elems_nil, List.nil_append]
          exact parse_value_arr_nil f rest
        | cons e tl =>
          have hwfe2 := hwfe
          simp only [wf_elems, Bool.and_eq_true] at hwfe2
          obtain ⟨c0, t0, hh, hne1, _⟩ := tok_head_ne_closers e hwfe2.1
          obtain ⟨u, hu⟩ : ∃ u, contents_elems (JsonArr.cons e tl) ++ (']' :: rest) =
              c0 :: (t0 ++ u) := by
            cases tl with
            | nil =>
              refine ⟨']' :: rest, ?_⟩
              rw [contents_elems_single, hh]
              simp
            | cons w tl2 =>
              refine ⟨(',' :: contents_elems (JsonArr.cons w tl2)) ++ ']' :: rest, ?_⟩
              rw [contents_elems_cons, hh]
              simp
          rw [hu, parse_value_arr_go f c0 (t0 ++ u) hne1]
          have hszA : sizeA (JsonArr.cons e tl) < n := by
            rw [← hsz]
            simp [sizeJ]
          have hQ := (ih (sizeA (JsonArr.cons e tl)) hszA).2.1
            (JsonArr.cons e tl) (by simp) rfl hwfe f rest
            (by simp only [sizeJ] at hfuel; omega)
          rw [hu] at hQ
          rw [hQ]
          rfl
      | obj ms =>
        have hwfm : wf_members ms = true := by simpa [json_wf] using hwf
        rw [tok_contents_obj]
        rw [show ((lbrace :: contents_members ms) ++ [rbrace]) ++ rest =
            lbrace :: (contents_members ms ++ rbrace :: rest) from by simp]
        cases ms with
        | nil =>
          rw [show contents_members JsonObj.nil = [] from rfl, List.nil_append]
          exact parse_value_obj_nil f rest
        | cons k v tl =>
          obtain ⟨u, hu⟩ : ∃ u, contents_members (JsonObj.cons k v tl) ++ (rbrace :: rest) =
              '"' :: u := by
            cases tl with
            | nil =>
              refine ⟨(k ++ '"' :: ':' :: tok_contents v) ++ rbrace :: rest, ?_⟩
              rw [contents_members_single]
              simp
            | cons k2 v2 tl2 =>
              refine ⟨(k ++ '"' :: ':' :: tok_contents v ++
                ',' :: contents_members (JsonObj.cons k2 v2 tl2)) ++ rbrace :: rest, ?_⟩
              rw [contents_members_cons]
              simp
          rw [hu, parse_value_obj_go f '"' u (by decide)]
          have hszO : sizeO (JsonObj.cons k v tl) < n := by
            rw [← hsz]
            simp [sizeJ]
          have hR := (ih (sizeO (JsonObj.cons k v tl)) hszO).2.2
            (JsonObj.cons k v tl) (by simp) rfl hwfm f rest
            (by simp only [sizeJ] at hfuel; omega)
          rw [hu] at hR
          rw [hR]
          rfl
    · intro es hne hsz hwfe fuel rest hfuel
      cases es with
      | nil => exact absurd rfl hne
      | cons v tl =>
        simp only [wf_elems, Bool.and_eq_true] at hwfe
        simp only [sizeA] at hsz
        obtain ⟨f, rfl⟩ : ∃ f, fuel = f + 1 :=
          ⟨fuel - 1, by simp only [sizeA] at hfuel; omega⟩
        have hfle : sizeJ v + sizeA tl ≤ f := by
          simp only [sizeA] at hfuel
          omega
        cases tl with
        | nil =>
          rw [contents_elems_single]
          have hP := (ih (sizeJ v) (by simp only [sizeA] at hsz; omega)).1 v rfl hwfe.1
            f (']' :: rest) (by simp only [sizeA] at hfle; omega) rfl
          exact parse_elements_last f _ rest v hP
        | cons w tl2 =>
          rw [contents_elems_cons]
          rw [show ((tok_contents v ++ ',' :: contents_elems (JsonArr.cons w tl2)) ++
              ']' :: rest) =
              tok_contents v ++ ',' ::
                (contents_elems (JsonArr.cons w tl2) ++ ']' :: rest) from by simp]
          have hP := (ih (sizeJ v) (by omega)).1 v rfl hwfe.1
            f (',' :: (contents_elems (JsonArr.cons w tl2) ++ ']' :: rest))
            (by omega) rfl
          rw [parse_elements_more f _ _ v hP]
          have hQ := (ih (sizeA (JsonArr.cons w tl2)) (by simp only [sizeA] at hsz ⊢; omega)).2.1
            (JsonArr.cons w tl2) (by simp) rfl hwfe.2 f rest (by simp only [sizeA] at hfle ⊢; omega)
          rw [hQ]
          rfl
    · intro ms hne hsz hwfm fuel rest hfuel
      cases ms with
      | nil => exact absurd rfl hne
      | cons k v tl =>
        simp only [wf_members, Bool.and_eq_true] at hwfm
        simp only [sizeO] at hsz
        obtain ⟨f, rfl⟩ : ∃ f, fuel = f + 1 :=
          ⟨fuel - 1, by simp only [sizeO] at hfuel; omega⟩
        have hfle : sizeJ v + sizeO tl ≤ f := by
          simp only [sizeO] at hfuel
          omega
        cases tl with
        | nil =>
          rw [contents_members_single]
          rw [show (('"' :: k) ++ '"' :: ':' :: tok_contents v) ++ rbrace :: rest =
              '"' :: (k ++ '"' :: ':' :: (tok_contents v ++ rbrace :: rest)) from by simp]
          have hP := (ih (sizeJ v) (by omega)).1 v rfl hwfm.1.2
            f (rbrace :: rest) (by omega) rfl
          exact parse_members_last f k hwfm.1.1 _ rest v hP
        | cons k2 v2 tl2 =>
          rw [contents_members_cons]
          rw [show (('"' :: k) ++ '"' :: ':' :: tok_contents v ++
              ',' :: contents_members (JsonObj.cons k2 v2 tl2)) ++ rbrace :: rest =
              '"' :: (k ++ '"' :: ':' :: (tok_contents v ++
                ',' :: (contents_members (JsonObj.cons k2 v2 tl2) ++ rbrace :: rest)))
              from by simp]
          have hP := (ih (sizeJ v) (by omega)).1 v rfl hwfm.1.2
            f (',' :: (contents_members (JsonObj.cons k2 v2 tl2) ++ rbrace :: rest))
            (by omega) rfl
          rw [parse_members_more f k hwfm.1.1 _ _ v hP]
          have hR := (ih (sizeO (JsonObj.cons k2 v2 tl2)) (by simp only [sizeO] at hsz ⊢; omega)).2.2
            (JsonObj.cons k2 v2 tl2) (by simp) rfl hwfm.2 f rest
            (by simp only [sizeO] at hfle ⊢; omega)
          rw [hR]
          rfl

/-- The token contents of a well-formed value are at least as long as its
size measure, so `input length + 1` is always sufficient parser fuel. -/
theorem tok_len_all : ∀ n : Nat,
    (∀ v : Json, sizeJ v = n → json_wf v = true →
      sizeJ v ≤ (tok_contents v).length) ∧
    (∀ es : JsonArr, sizeA es = n → wf_elems es = true →
      sizeA es ≤ (contents_elems es).length + 1) ∧
    (∀ ms : JsonObj, sizeO ms = n → wf_members ms = true →
      sizeO ms ≤ (contents_members ms).length + 1) := by
  intro n
  induction n using Nat.strong_induction_on with
  | _ n ih =>
    refine ⟨?_, ?_, ?_⟩
    · intro v hsz hwf
      cases v with
      | null => simp [tok_contents_null, sizeJ]
      | bool b => cases b <;> simp [tok_contents_bool, sizeJ]
      | num s =>
        obtain ⟨c, t, hs, _⟩ := num_head s (by simpa [json_wf] using hwf)
        rw [tok_contents_num, hs]
        simp [sizeJ]
      | str s =>
        rw [tok_contents_str]
        simp [sizeJ]
      | arr es =>
        have h1 := (ih (sizeA es) (by rw [← hsz]; simp [sizeJ])).2.1 es rfl
          (by simpa [json_wf] using hwf)
        rw [tok_contents_arr]
        simp only [sizeJ, List.length_cons, List.length_append, List.length_singleton]
        omega
      | obj ms =>
        have h1 := (ih (sizeO ms) (by rw [← hsz]; simp [sizeJ])).2.2 ms rfl
          (by simpa [json_wf] using hwf)
        rw [tok_contents_obj]
        simp only [sizeJ, List.length_cons, List.length_append, List.length_singleton]
        omega
    · intro es hsz hwfe
      cases es with
      | nil => simp [sizeA]
      | cons v tl =>
        simp only [wf_elems, Bool.and_eq_true] at hwfe
        simp only [sizeA] at hsz
        cases tl with
        | nil =>
          have h1 := (ih (sizeJ v) (by omega)).1 v rfl hwfe.1
          rw [contents_elems_single]
          simp only [sizeA]
          omega
        | cons w tl2 =>
          have h1 := (ih (sizeJ v) (by omega)).1 v rfl hwfe.1
          have h2 := (ih (sizeA (JsonArr.cons w tl2)) (by simp only [sizeA] at hsz ⊢; omega)).2.1
            (JsonArr.cons w tl2) rfl hwfe.2
          rw [contents_elems_cons]
          simp only [sizeA] at h2
          simp only [sizeA, List.length_append, List.length_cons]
          omega
    · intro ms hsz hwfm
      cases ms with
      | nil => simp [sizeO]
      | cons k v tl =>
        simp only [wf_members, Bool.and_eq_true] at hwfm
        simp only [sizeO] at hsz
        cases tl with
        | nil =>
          have h1 := (ih (sizeJ v) (by omega)).1 v rfl hwfm.1.2
          rw [contents_members_single]
          simp only [sizeO, List.length_append, List.length_cons]
          omega
        | cons k2 v2 tl2 =>
          have h1 := (ih (sizeJ v) (by omega)).1 v rfl hwfm.1.2
          have h2 := (ih (sizeO (JsonObj.cons k2 v2 tl2)) (by simp only [sizeO] at hsz ⊢; omega)).2.2
            (JsonObj.cons k2 v2 tl2) rfl hwfm.2
          rw [contents_members_cons]
          simp only [sizeO] at h2
          simp only [sizeO, List.length_append, List.length_cons]
          omega

/-- C3 (counterexample): the tokenizer wraps strings in quotes WITHOUT
escaping, so for the one-character string consisting of a double quote the
concatenated token contents are the three-quote document, which is not
syntactically valid JSON (a complete empty string followed by a stray
quote) — the round-trip fails. -/
theorem token_concat_quote_invalid :
    tok_contents (Json.str ['"']) = ('"' :: '"' :: '"' :: []) ∧
    parse_json_doc (tok_contents (Json.str ['"'])) = none :=
  ⟨rfl, rfl⟩

/-- C3 (amended): for every JSON value whose strings and object keys
contain no double quote, no backslash and no control character (so the
unescaped tokenizer output is itself legal JSON syntax) and whose number
renderings are valid JSON number literals, concatenating the `content`
fields of the tokens of `tokenize_json_value`, in order, yields a
syntactically valid JSON document that parses back to a value structurally
equal to the input, with object key order and number formatting
preserved. -/
theorem json_round_trip (v : Json) (h : json_wf v = true) :
    parse_json_doc (tok_contents v) = some v := by
  have hlen : sizeJ v ≤ (tok_contents v).length := (tok_len_all (sizeJ v)).1 v rfl h
  have hp := (parse_round_all (sizeJ v)).1 v rfl h ((tok_contents v).length + 1) []
    (by omega) rfl
  rw [List.append_nil] at hp
  simp [parse_json_doc, hp]

/-- C3 (witness): the round-trip theorem applied to the concrete document
`{"a":[1,null],"b":"x"}`. -/
theorem json_round_trip_witness :
    json_wf (Json.obj (JsonObj.cons ('a' :: [])
      (Json.arr (JsonArr.cons (Json.num ('1' :: []))
        (JsonArr.cons Json.null JsonArr.nil)))
      (JsonObj.cons ('b' :: []) (Json.str ('x' :: [])) JsonObj.nil))) = true ∧
    parse_json_doc (tok_contents (Json.obj (JsonObj.cons ('a' :: [])
      (Json.arr (JsonArr.cons (Json.num ('1' :: []))
        (JsonArr.cons Json.null JsonArr.nil)))
      (JsonObj.cons ('b' :: []) (Json.str ('x' :: [])) JsonObj.nil)))) =
      some (Json.obj (JsonObj.cons ('a' :: [])
        (Json.arr (JsonArr.cons (Json.num ('1' :: []))
          (JsonArr.cons Json.null JsonArr.nil)))
        (JsonObj.cons ('b' :: []) (Json.str ('x' :: [])) JsonObj.nil))) :=
  ⟨rfl, json_round_trip _ rfl⟩

end RichLogger
